import Mathlib

/-!
Verification development for the tag-pattern dataset pipeline: the Sort Stage
(SortFilter, src/hxl/old_filters/sort.py) and the Count Stage
(hxlcount, src/hxl/commands/hxlcount.py).

The Python code is shallowly embedded: every function is translated into an
executable Lean definition; the mutable dict of hxlcount becomes an explicit
association list threaded through a fold, the in-place mutation of the caller's
tags list becomes an explicit second return component, and exceptions become
Except values.  CPython's sorted() is a stable sort (reverse=True reverses the
buffer before and after sorting); since a stable sort with respect to a total
preorder has a unique output, it is embedded as a structural stable insertion
sort over the same comparison, which is extensionally equal.

Python str values are modelled as Lean String (comparison of both is
lexicographic on code points).  Python floats are modelled on the sub-language
of plain decimal literals whose magnitude and precision guarantee that
str(float(s)) equals the canonicalised decimal string (at most 15 significant
digits, integer part below 10^15, nonzero magnitude at least 10^-4: in that
range every canonical decimal survives the double round-trip and the shortest
round-trip repr used by str is the canonical decimal itself; scientific
notation, inf/nan, underscores and surrounding whitespace are outside the
modelled sub-language).  dateutil.parser.parse is modelled on ISO
YYYY-MM-DD dates with four-digit years; an unparseable date is the error case,
matching the ValueError the library raises.
-/

namespace HXL

open List

/-- Decimal digit test on characters, as a Bool (code points 48 to 57). -/
def isDigitCh (c : Char) : Bool := decide (48 ≤ c.toNat) && decide (c.toNat ≤ 57)

/-- Python sequence comparison, generic over the element order: elementwise,
the first non-equal pair decides, a strict prefix is smaller. -/
def listLtBy (lt : α → α → Bool) [DecidableEq α] : List α → List α → Bool
  | [], [] => false
  | [], _ :: _ => true
  | _ :: _, [] => false
  | a :: as, b :: bs => if a = b then listLtBy lt as bs else lt a b

/-- Strict order on characters by code point, as a Bool. -/
def charLtB (a b : Char) : Bool := decide (a < b)

/-- Strict lexicographic comparison of character lists by code point.  This is
the comparison Python applies to str values. -/
def charListLt : List Char → List Char → Bool := listLtBy charLtB

/-- Python string comparison: lexicographic on code points. -/
def pyStrLt (a b : String) : Bool := charListLt a.data b.data

/-- Python list comparison on lists of strings. -/
def pyListLt : List String → List String → Bool := listLtBy pyStrLt

/-- Python str.upper restricted to basic latin letters (all values exercised by
the claims are ASCII; Char.toUpper matches Python there). -/
def pyUpper (s : String) : String := String.mk (s.data.map Char.toUpper)

/-- Character for a decimal digit (0 to 9). -/
def decDigitChar (d : Nat) : Char := Char.ofNat (48 + d)

/-- Fuel-driven decimal rendering of a natural number, most significant digit
first.  Structural recursion so that the kernel can evaluate it. -/
def natToCharsAux : Nat → Nat → List Char
  | 0, _ => []
  | fuel + 1, n =>
    if n < 10 then [decDigitChar n]
    else natToCharsAux fuel (n / 10) ++ [decDigitChar (n % 10)]

/-- Decimal digit string of a natural number (no leading zeros; 0 renders
as the single digit 0).  Models Python str on a nonnegative int. -/
def natToChars (n : Nat) : List Char := natToCharsAux (n + 1) n

/-- Python str of a nonnegative integer, as a String. -/
def natRepr (n : Nat) : String := String.mk (natToChars n)

/-- Decimal rendering of n zero-left-padded to exactly w digits, most
significant digit first (the digits of n modulo 10^w). -/
def padNat (w : Nat) (n : Nat) : List Char :=
  match w with
  | 0 => []
  | w + 1 => decDigitChar (n / 10 ^ w) :: padNat w (n % 10 ^ w)

/-- Python str.zfill on a character list: left-pad with zeros to width w,
keeping a leading sign character in front of the padding; a string at least
w long is returned unchanged. -/
def zfillChars (w : Nat) : List Char → List Char
  | [] => List.replicate w '0'
  | c :: rest =>
    if w ≤ (c :: rest).length then c :: rest
    else if c = '-' ∨ c = '+' then c :: (List.replicate (w - (c :: rest).length) '0' ++ rest)
    else List.replicate (w - (c :: rest).length) '0' ++ c :: rest

/-- Python str.zfill. -/
def zfill (w : Nat) (s : String) : String := String.mk (zfillChars w s.data)

/-- Drop leading zero digits but keep at least one character. -/
def stripLeadingZeros : List Char → List Char
  | [] => []
  | c :: rest => if c = '0' ∧ rest ≠ [] then stripLeadingZeros rest else c :: rest

/-- Drop all trailing zero digits. -/
def dropTrailingZeros (cs : List Char) : List Char :=
  (cs.reverse.dropWhile (fun c => decide (c = '0'))).reverse

/-- A parsed decimal literal in canonical form: optional sign, integer-part
digits without redundant leading zeros, fraction digits without trailing
zeros. -/
structure Dec where
  neg : Bool
  ip : List Char
  fp : List Char
deriving DecidableEq

/-- Split an optional leading sign off a character list.  Python float() also
accepts a leading plus, which contributes no sign to the result. -/
def splitSign : List Char → Bool × List Char
  | [] => (false, [])
  | c :: r =>
    if c = '-' then (true, r)
    else if c = '+' then (false, r)
    else (false, c :: r)

/-- Parse a Python float literal of the modelled decimal sub-language:
optional sign, digits, optional single dot, digits, with at least one digit,
canonicalised; none models the ValueError float() raises on anything else,
and also marks literals outside the faithfully modelled range (see the file
header). -/
def parseDec (s : String) : Option Dec :=
  let sp := splitSign s.data
  let rest := sp.2
  let ipRaw := rest.takeWhile (fun c => decide (c ≠ '.'))
  let after := rest.dropWhile (fun c => decide (c ≠ '.'))
  let fpRaw := after.tail
  let ip := if ipRaw = [] then ['0'] else stripLeadingZeros ipRaw
  let fp := dropTrailingZeros fpRaw
  if ipRaw.all isDigitCh ∧ fpRaw.all isDigitCh ∧ (ipRaw ≠ [] ∨ fpRaw ≠ [])
      ∧ ip.length ≤ 15
      ∧ (if ip = ['0'] then
          (fp.dropWhile (fun c => decide (c = '0'))).length ≤ 15
            ∧ (fp = [] ∨ (fp.takeWhile (fun c => decide (c = '0'))).length ≤ 3)
        else ip.length + fp.length ≤ 15) then
    some (Dec.mk sp.1 ip fp)
  else none

/-- Python str of the float denoted by a canonical decimal: sign, integer
digits, a dot, then the fraction digits (a bare 0 when the fraction is
empty). -/
def renderFloat (d : Dec) : String :=
  String.mk ((if d.neg then ['-'] else []) ++ d.ip ++ '.' :: (if d.fp = [] then ['0'] else d.fp))

/-- Model of Python str(float(s)) on the modelled decimal sub-language. -/
def pyStrFloat (s : String) : Option String := (parseDec s).map renderFloat

/-- Numeric key normalisation of the Sort Stage (sort.py lines 71 to 76):
str(float(raw_value)).zfill(15) when the value parses as a number, the raw
string unchanged when float() raises ValueError (the except branch passes). -/
def numNormalize (raw : String) : String :=
  match pyStrFloat raw with
  | some t => zfill 15 t
  | none => raw

/-- Numeric value of a digit string (most significant digit first). -/
def decDigitsVal (cs : List Char) : Nat :=
  cs.foldl (fun acc c => acc * 10 + (c.toNat - 48)) 0

/-- Value of a canonical decimal, scaled by 10 to the length of its fraction
part, as an integer. -/
def decScaled (d : Dec) : Int :=
  (if d.neg then -1 else 1)
    * ((decDigitsVal d.ip * 10 ^ d.fp.length + decDigitsVal d.fp : Nat) : Int)

/-- Numeric order on canonical decimals (cross-multiplied by the two scale
factors). -/
def decLtv (a b : Dec) : Prop :=
  decScaled a * (10 : Int) ^ b.fp.length < decScaled b * (10 : Int) ^ a.fp.length

instance decLtvDecidable (a b : Dec) : Decidable (decLtv a b) :=
  inferInstanceAs (Decidable (_ < _))

/-- Numeric order of two value strings under the modelled float parse: true
exactly when both parse and the first denotes the smaller number. -/
def decLtB (s t : String) : Bool :=
  match parseDec s, parseDec t with
  | some a, some b => decide (decLtv a b)
  | _, _ => false

/-- A calendar date as produced by the modelled date parser. -/
structure PyDate where
  year : Nat
  month : Nat
  day : Nat
deriving DecidableEq

/-- Length of a month in the Gregorian calendar. -/
def daysInMonth (y m : Nat) : Nat :=
  if m = 2 then
    if y % 4 = 0 ∧ (y % 100 ≠ 0 ∨ y % 400 = 0) then 29 else 28
  else if m = 4 ∨ m = 6 ∨ m = 9 ∨ m = 11 then 30
  else 31

/-- Digit value of a character. -/
def digitVal (c : Char) : Nat := c.toNat - 48

/-- The date denoted by eight digit characters in YYYYMMDD order. -/
def isoDateOf (c1 c2 c3 c4 c5 c6 c7 c8 : Char) : PyDate :=
  PyDate.mk (digitVal c1 * 1000 + digitVal c2 * 100 + digitVal c3 * 10 + digitVal c4)
    (digitVal c5 * 10 + digitVal c6) (digitVal c7 * 10 + digitVal c8)

/-- Validity of a calendar date as checked by the date parser: year at least
1000, month 1 to 12, day within the month. -/
def isoOk (d : PyDate) : Prop :=
  1000 ≤ d.year ∧ 1 ≤ d.month ∧ d.month ≤ 12 ∧ 1 ≤ d.day ∧ d.day ≤ daysInMonth d.year d.month

instance isoOkDecidable (d : PyDate) : Decidable (isoOk d) := by
  unfold isoOk
  infer_instance

/-- Model of dateutil.parser.parse restricted to ISO YYYY-MM-DD dates with a
four-digit year of at least 1000 (the sub-language the claims exercise);
none models the ValueError dateutil raises on an unparseable value. -/
def parseISODate (s : String) : Option PyDate :=
  match s.data with
  | [c1, c2, c3, c4, e1, c5, c6, e2, c7, c8] =>
    if e1 = '-' ∧ e2 = '-' ∧ isDigitCh c1 ∧ isDigitCh c2 ∧ isDigitCh c3 ∧ isDigitCh c4
        ∧ isDigitCh c5 ∧ isDigitCh c6 ∧ isDigitCh c7 ∧ isDigitCh c8 then
      if isoOk (isoDateOf c1 c2 c3 c4 c5 c6 c7 c8) then
        some (isoDateOf c1 c2 c3 c4 c5 c6 c7 c8)
      else none
    else none
  | _ => none

/-- Model of datetime.strftime with format %Y-%m-%d: zero-padded four-digit
year, two-digit month and day. -/
def formatDate (d : PyDate) : String :=
  String.mk (padNat 4 d.year ++ '-' :: (padNat 2 d.month ++ '-' :: padNat 2 d.day))

/-- Chronological order on dates. -/
def dateBefore (a b : PyDate) : Prop :=
  a.year < b.year ∨ (a.year = b.year
    ∧ (a.month < b.month ∨ (a.month = b.month ∧ a.day < b.day)))

/-! The data model.  Columns, rows and tag patterns live in hxl/model.py and
hxl/parser.py, which are outside the visible source; they are modelled from
the spec.  A column carries a raw header and a hashtag; a row is the ordered
list of its cells, each cell paired with the hashtag of its column; value
lookup returns the value of the first column whose hashtag matches, or the
distinguished absent indicator (Python False / no match), modelled as none.
Attribute matching of full tag patterns is not exercised by any claim and is
not modelled: patterns here select by hashtag equality, per the spec's
first-match-wins contract. -/

/-- One column of the schema: raw header text and hashtag. -/
structure Column where
  header : String
  tag : String
deriving DecidableEq

/-- One row: cells in schema order, each cell holding the owning column's
hashtag and the cell value. -/
structure Row where
  cells : List (String × String)
deriving DecidableEq

/-- Raw values of the row in schema order. -/
def Row.values (r : Row) : List String := r.cells.map (fun c => c.2)

/-- Modelled from the spec: Row.get returns the value under the first column
whose hashtag matches the requested tag, otherwise the absent indicator. -/
def Row.get (r : Row) (tag : String) : Option String :=
  (r.cells.find? (fun c => decide (c.1 = tag))).map (fun c => c.2)

/-- A tag pattern; only the hashtag part is modelled (see above). -/
structure TagPattern where
  tag : String
deriving DecidableEq

/-- Modelled from the spec: TagPattern.get_value scans the row's columns in
schema order and returns the value under the first matching column, or the
absent indicator. -/
def TagPattern.get_value (p : TagPattern) (r : Row) : Option String :=
  Row.get r p.tag

/-- A materialised upstream dataset: its column schema and its rows. -/
structure Dataset where
  columns : List Column
  rows : List Row

/-- The Sort Stage (sort.py SortFilter): upstream source, list of sort
patterns, reverse flag. -/
structure SortFilter where
  source : Dataset
  sort_tags : List TagPattern
  reverse : Bool

/-- The columns property of SortFilter (sort.py lines 52 to 57): the same
columns as the source. -/
def SortFilter.columns (f : SortFilter) : List Column := f.source.columns

/-- Prefix test on character lists. -/
def isPrefixCh : List Char → List Char → Bool
  | [], _ => true
  | _ :: _, [] => false
  | a :: as, b :: bs => decide (a = b) && isPrefixCh as bs

/-- Python str.endswith. -/
def pyEndsWith (s suffix : String) : Bool :=
  isPrefixCh suffix.data.reverse s.data.reverse

/-- The error a pass of the Sort Stage can raise: the ValueError from
dateutil.parser.parse on an unparseable date value, carrying that value.
It propagates out of sorted() because sort.py does not catch it. -/
inductive SortError where
  | dateParse (value : String)
deriving DecidableEq

/-- Decidable equality of raised-or-returned results. -/
def exceptEqDec {ε α : Type} [DecidableEq ε] [DecidableEq α] :
    (x y : Except ε α) → Decidable (x = y)
  | .error a, .error b =>
    if h : a = b then isTrue (by rw [h])
    else isFalse (fun he => h (by injection he))
  | .error _, .ok _ => isFalse (fun he => Except.noConfusion he)
  | .ok _, .error _ => isFalse (fun he => Except.noConfusion he)
  | .ok a, .ok b =>
    if h : a = b then isTrue (by rw [h])
    else isFalse (fun he => h (by injection he))

instance {ε α : Type} [DecidableEq ε] [DecidableEq α] : DecidableEq (Except ε α) :=
  exceptEqDec

/-- Error-propagating map, embedding a Python loop in which any iteration may
raise: the first raising element determines the exception. -/
def mapE (g : α → Except ε β) : List α → Except ε (List β)
  | [] => .ok []
  | a :: l =>
    match g a with
    | .error e => .error e
    | .ok b =>
      match mapE g l with
      | .error e => .error e
      | .ok bs => .ok (b :: bs)

/-- The get_value closure of SortFilter.__iter__.make_key (sort.py lines 68
to 80).  The absent indicator normalises to the empty string (modelled from
the spec, since the indicator's interaction with the suffix branches is
decided outside the visible source); a value under a tag ending in _num or
_deg is normalised through float and zfill with silent fallback to the raw
string; a value under a tag ending in _date must parse as a date or the
ValueError propagates; the result is upper-cased, with a falsy (empty) value
normalising to the empty string. -/
def getKeyValue (p : TagPattern) (row : Row) : Except SortError String :=
  match TagPattern.get_value p row with
  | none => .ok ""
  | some raw0 =>
    if pyEndsWith p.tag "_num" || pyEndsWith p.tag "_deg" then
      .ok (if numNormalize raw0 = "" then "" else pyUpper (numNormalize raw0))
    else if pyEndsWith p.tag "_date" then
      match parseISODate raw0 with
      | some d => .ok (if formatDate d = "" then "" else pyUpper (formatDate d))
      | none => .error (.dateParse raw0)
    else .ok (if raw0 = "" then "" else pyUpper raw0)

/-- The make_key closure of SortFilter.__iter__ (sort.py lines 64 to 85): the
list of extracted key components when sort tags were given, the raw row
values otherwise. -/
def makeKey (f : SortFilter) (row : Row) : Except SortError (List String) :=
  if f.sort_tags = [] then .ok row.values
  else mapE (fun p => getKeyValue p row) f.sort_tags

/-- Stable insertion of an element into a list: it goes in front of the first
element b with le a b (CPython's stable sort places a before b exactly when
not key(b) < key(a)). -/
def pyInsert (le : α → α → Bool) (a : α) : List α → List α
  | [] => [a]
  | b :: l => if le a b then a :: b :: l else b :: pyInsert le a l

/-- Stable sort with respect to a boolean total preorder: the unique stable
sort, hence extensionally CPython's sorted(). -/
def pySort (le : α → α → Bool) : List α → List α
  | [] => []
  | a :: l => pyInsert le a (pySort le l)

/-- Model of sorted(xs, key=..., reverse=reverse): CPython reverses the
buffer before and after the stable ascending sort when reverse is set. -/
def pySorted (le : α → α → Bool) (reverse : Bool) (l : List α) : List α :=
  if reverse then (pySort le l.reverse).reverse else pySort le l

/-- Comparison of composite sort keys: a precedes b unless b's key list is
strictly smaller (component-wise, earlier components primary). -/
def keyLE (a b : List String) : Bool := !pyListLt b a

/-- Key comparison lifted to decorated (key, row) pairs. -/
def pairLE (x y : List String × Row) : Bool := keyLE x.1 y.1

/-- SortFilter.__iter__ (sort.py lines 59 to 88): compute every row's key in
upstream order (sorted() computes all keys before comparing, so the first
failing key raises before any output), then stable-sort the decorated rows
and strip the keys. -/
def sortFilterRows (f : SortFilter) : Except SortError (List Row) :=
  match mapE (fun r => (makeKey f r).map (fun k => ((k, r) : List String × Row))) f.source.rows with
  | .error e => .error e
  | .ok keyed => .ok ((pySorted pairLE f.reverse keyed).map (fun x => x.2))

/-! The Count Stage, hxlcount.py. -/

/-- The per-row extraction loop of hxlcount (lines 45 to 50): the value under
each requested tag in turn, appending only when it is not the absent
indicator. -/
def extractValues (tags : List String) (r : Row) : List String :=
  tags.filterMap (fun t => Row.get r t)

/-- Python dict.get on the stats association list. -/
def statsGet (stats : List (List String × Nat)) (key : List String) : Option Nat :=
  (stats.find? (fun p => decide (p.1 = key))).map (fun p => p.2)

/-- Python dict assignment: overwrite in place when the key is present,
append a new entry otherwise (dicts preserve insertion order). -/
def statsSet (stats : List (List String × Nat)) (key : List String) (v : Nat) :
    List (List String × Nat) :=
  if (stats.find? (fun p => decide (p.1 = key))).isSome then
    stats.map (fun p => if p.1 = key then (key, v) else p)
  else stats ++ [(key, v)]

/-- The conditional increment of hxlcount (lines 53 to 56): a truthy stored
count is incremented, otherwise the entry is set to 1. -/
def statsStep (stats : List (List String × Nat)) (key : List String) :
    List (List String × Nat) :=
  match statsGet stats key with
  | some n => if n ≠ 0 then statsSet stats key (n + 1) else statsSet stats key 1
  | none => statsSet stats key 1

/-- The accumulation loop of hxlcount (lines 42 to 56): rows with a nonempty
extracted value list update the stats dict under the tuple of their values. -/
def hxlcountStats (tags : List String) (rows : List Row) : List (List String × Nat) :=
  rows.foldl
    (fun stats row =>
      let values := extractValues tags row
      if values ≠ [] then statsStep stats values else stats)
    []

/-- Sum of all stored counts. -/
def statsSum (stats : List (List String × Nat)) : Nat := (stats.map (fun p => p.2)).sum

/-- The keys of the stats dict, in insertion order. -/
def statsKeys (stats : List (List String × Nat)) : List (List String) :=
  stats.map (fun p => p.1)

/-- Number of input rows whose extracted value list equals the given key. -/
def countKey (tags : List String) (rows : List Row) (key : List String) : Nat :=
  (rows.filter (fun r => decide (extractValues tags r = key))).length

/-- Python comparison of the (tuple, count) pairs produced by stats.items():
tuples first, counts break ties. -/
def pyPairLt (x y : List String × Nat) : Bool :=
  if x.1 = y.1 then decide (x.2 < y.2) else pyListLt x.1 y.1

/-- The sorted() comparison on stats items. -/
def itemLE (x y : List String × Nat) : Bool := !pyPairLt y x

/-- Model of sorted(stats.items()) (hxlcount line 65). -/
def sortedItems (stats : List (List String × Nat)) : List (List String × Nat) :=
  pySort itemLE stats

/-- The synthetic trailing column tag appended by hxlcount (line 61). -/
def totalTag : String := "#x_total_num"

/-- hxlcount (lines 33 to 68), as a pure function: the first component is the
sequence of rows handed to the csv writer (the tag header, then one row per
distinct tuple in ascending order, each tuple's values followed by its
count rendered as Python str does); the second component is the final state
of the caller's tags list, which line 61 mutates in place by appending the
synthetic total tag before the header is written. -/
def hxlcount (rows : List Row) (tags : List String) :
    List (List String) × List String :=
  let stats := hxlcountStats tags rows
  let tags2 := tags ++ [totalTag]
  (tags2 :: (sortedItems stats).map (fun p => p.1 ++ [natRepr p.2]), tags2)

/-! Concrete rows, datasets and filters used to instantiate the theorems. -/

/-- The three rows of the spec's aggregate example: sector WASH in adm1 A twice
and in adm1 B once. -/
def demoRows : List Row :=
  [Row.mk [("#sector", "WASH"), ("#adm1", "A")],
   Row.mk [("#sector", "WASH"), ("#adm1", "B")],
   Row.mk [("#sector", "WASH"), ("#adm1", "A")]]

/-- A row whose org value differs from the later rows only in letter case. -/
def stableRow1 : Row := Row.mk [("#org", "a"), ("#id", "1")]

/-- A row with the lexically larger org value. -/
def stableRow2 : Row := Row.mk [("#org", "B"), ("#id", "2")]

/-- A row sharing the sort key of the first row. -/
def stableRow3 : Row := Row.mk [("#org", "A"), ("#id", "3")]

/-- A sort over the org column of three rows, two of which share a key. -/
def stableF : SortFilter :=
  SortFilter.mk
    (Dataset.mk [Column.mk "org" "#org", Column.mk "id" "#id"]
      [stableRow1, stableRow2, stableRow3])
    [TagPattern.mk "#org"] false

/-- The first of two rows with identical sort keys. -/
def revRow1 : Row := Row.mk [("#t", "X"), ("#u", "1")]

/-- The second of two rows with identical sort keys. -/
def revRow2 : Row := Row.mk [("#t", "X"), ("#u", "2")]

/-- A dataset of two rows that compare equal under the #t pattern. -/
def revSrc : Dataset :=
  Dataset.mk [Column.mk "t" "#t", Column.mk "u" "#u"] [revRow1, revRow2]

/-- A row carrying an unparseable date value. -/
def dateDemoRow : Row := Row.mk [("#when_date", "not-a-date")]

/-- A date sort over a single row whose date value does not parse. -/
def dateDemoF : SortFilter :=
  SortFilter.mk (Dataset.mk [Column.mk "when" "#when_date"] [dateDemoRow])
    [TagPattern.mk "#when_date"] false

/-- A row carrying the numeric value 2.5. -/
def numRow25 : Row := Row.mk [("#value_num", "2.5")]

/-- A row carrying the numeric value 2.15. -/
def numRow215 : Row := Row.mk [("#value_num", "2.15")]

/-- A row carrying the numeric value 2. -/
def numRowTwo : Row := Row.mk [("#value_num", "2")]

/-- A row carrying the numeric value 10. -/
def numRowTen : Row := Row.mk [("#value_num", "10")]

/-- A row carrying the numeric value 1. -/
def numRowOne : Row := Row.mk [("#value_num", "1")]

/-- Strict-order properties of a boolean comparison: irreflexive, asymmetric,
transitive, connected (mutually incomparable elements are equal).  All the
Python comparisons used by the two stages satisfy them. -/
structure BoolLt (lt : α → α → Bool) : Prop where
  irrefl : ∀ a, lt a a = false
  asymm : ∀ a b, lt a b = true → lt b a = false
  lt_trans : ∀ a b c, lt a b = true → lt b c = true → lt a c = true
  conn : ∀ a b, lt a b = false → lt b a = false → a = b

/-! Order theory of the Python comparisons. -/

theorem charLtB_boolLt : BoolLt charLtB := by
  constructor
  · intro a; simp [charLtB]
  · intro a b h
    simp only [charLtB, decide_eq_true_eq] at h
    simp only [charLtB, decide_eq_false_iff_not]
    exact lt_asymm h
  · intro a b c h1 h2
    simp only [charLtB, decide_eq_true_eq] at h1 h2 ⊢
    exact lt_trans h1 h2
  · intro a b h1 h2
    simp only [charLtB, decide_eq_false_iff_not] at h1 h2
    exact le_antisymm (le_of_not_lt h2) (le_of_not_lt h1)

theorem listLtBy_irrefl [DecidableEq α] (lt : α → α → Bool) :
    ∀ l : List α, listLtBy lt l l = false
  | [] => rfl
  | a :: as => by simp [listLtBy, listLtBy_irrefl lt as]

theorem listLtBy_asymm [DecidableEq α] {lt : α → α → Bool} (h : BoolLt lt) :
    ∀ as bs : List α, listLtBy lt as bs = true → listLtBy lt bs as = false := by
  intro as
  induction as with
  | nil =>
    intro bs h1
    cases bs with
    | nil => simp [listLtBy] at h1
    | cons b bs => simp [listLtBy]
  | cons a as ih =>
    intro bs h1
    cases bs with
    | nil => simp [listLtBy] at h1
    | cons b bs =>
      by_cases hab : a = b
      · subst hab
        rw [listLtBy, if_pos rfl] at h1
        rw [listLtBy, if_pos rfl]
        exact ih bs h1
      · rw [listLtBy, if_neg hab] at h1
        rw [listLtBy, if_neg (fun e => hab e.symm)]
        exact h.asymm a b h1

theorem listLtBy_trans [DecidableEq α] {lt : α → α → Bool} (h : BoolLt lt) :
    ∀ as bs cs : List α, listLtBy lt as bs = true → listLtBy lt bs cs = true →
      listLtBy lt as cs = true := by
  intro as
  induction as with
  | nil =>
    intro bs cs h1 h2
    cases bs with
    | nil => exact h2
    | cons b bs =>
      cases cs with
      | nil => simp [listLtBy] at h2
      | cons c cs => simp [listLtBy]
  | cons a as ih =>
    intro bs cs h1 h2
    cases bs with
    | nil => simp [listLtBy] at h1
    | cons b bs =>
      cases cs with
      | nil => simp [listLtBy] at h2
      | cons c cs =>
        by_cases hab : a = b
        · subst hab
          rw [listLtBy, if_pos rfl] at h1
          by_cases hac : a = c
          · subst hac
            rw [listLtBy, if_pos rfl] at h2
            rw [listLtBy, if_pos rfl]
            exact ih bs cs h1 h2
          · rw [listLtBy, if_neg hac] at h2
            rw [listLtBy, if_neg hac]
            exact h2
        · rw [listLtBy, if_neg hab] at h1
          by_cases hbc : b = c
          · subst hbc
            rw [listLtBy, if_neg hab]
            exact h1
          · rw [listLtBy, if_neg hbc] at h2
            have hac : a ≠ c := by
              intro e
              subst e
              have := h.asymm b a h2
              rw [this] at h1
              cases h1
            rw [listLtBy, if_neg hac]
            exact h.lt_trans a b c h1 h2

theorem listLtBy_conn [DecidableEq α] {lt : α → α → Bool} (h : BoolLt lt) :
    ∀ as bs : List α, listLtBy lt as bs = false → listLtBy lt bs as = false → as = bs := by
  intro as
  induction as with
  | nil =>
    intro bs h1 _
    cases bs with
    | nil => rfl
    | cons b bs => simp [listLtBy] at h1
  | cons a as ih =>
    intro bs h1 h2
    cases bs with
    | nil => simp [listLtBy] at h2
    | cons b bs =>
      by_cases hab : a = b
      · subst hab
        rw [listLtBy, if_pos rfl] at h1 h2
        rw [ih bs h1 h2]
      · rw [listLtBy, if_neg hab] at h1
        rw [listLtBy, if_neg (fun e => hab e.symm)] at h2
        exact absurd (h.conn a b h1 h2) hab

theorem listLtBy_boolLt [DecidableEq α] {lt : α → α → Bool} (h : BoolLt lt) :
    BoolLt (listLtBy lt) :=
  ⟨listLtBy_irrefl lt, listLtBy_asymm h, listLtBy_trans h, listLtBy_conn h⟩

theorem charListLt_boolLt : BoolLt charListLt := listLtBy_boolLt charLtB_boolLt

theorem pyStrLt_boolLt : BoolLt pyStrLt := by
  constructor
  · intro a; exact charListLt_boolLt.irrefl a.data
  · intro a b h1; exact charListLt_boolLt.asymm a.data b.data h1
  · intro a b c h1 h2; exact charListLt_boolLt.lt_trans a.data b.data c.data h1 h2
  · intro a b h1 h2
    have := charListLt_boolLt.conn a.data b.data h1 h2
    cases a
    cases b
    exact congrArg String.mk this

theorem pyListLt_boolLt : BoolLt pyListLt := listLtBy_boolLt pyStrLt_boolLt

theorem pyPairLt_boolLt : BoolLt pyPairLt := by
  constructor
  · intro a; simp [pyPairLt]
  · intro a b h1
    by_cases he : a.1 = b.1
    · rw [pyPairLt, if_pos he] at h1
      rw [pyPairLt, if_pos he.symm]
      simp only [decide_eq_true_eq] at h1
      simp only [decide_eq_false_iff_not]
      omega
    · rw [pyPairLt, if_neg he] at h1
      rw [pyPairLt, if_neg (fun e => he e.symm)]
      exact pyListLt_boolLt.asymm a.1 b.1 h1
  · intro a b c h1 h2
    by_cases hab : a.1 = b.1
    · rw [pyPairLt, if_pos hab] at h1
      by_cases hbc : b.1 = c.1
      · rw [pyPairLt, if_pos hbc] at h2
        rw [pyPairLt, if_pos (hab.trans hbc)]
        simp only [decide_eq_true_eq] at h1 h2 ⊢
        omega
      · rw [pyPairLt, if_neg hbc] at h2
        rw [pyPairLt, if_neg (fun e => hbc (hab.symm.trans e))]
        rwa [hab]
    · rw [pyPairLt, if_neg hab] at h1
      by_cases hbc : b.1 = c.1
      · rw [pyPairLt, if_neg (fun e => hab (e.trans hbc.symm))]
        rwa [hbc] at h1
      · rw [pyPairLt, if_neg hbc] at h2
        have hac : a.1 ≠ c.1 := by
          intro e
          have h3 := pyListLt_boolLt.asymm b.1 c.1 h2
          rw [← e] at h3
          rw [h3] at h1
          cases h1
        rw [pyPairLt, if_neg hac]
        exact pyListLt_boolLt.lt_trans a.1 b.1 c.1 h1 h2
  · intro a b h1 h2
    by_cases he : a.1 = b.1
    · rw [pyPairLt, if_pos he] at h1
      rw [pyPairLt, if_pos he.symm] at h2
      simp only [decide_eq_false_iff_not] at h1 h2
      have : a.2 = b.2 := by omega
      exact Prod.ext he this
    · rw [pyPairLt, if_neg he] at h1
      rw [pyPairLt, if_neg (fun e => he e.symm)] at h2
      exact absurd (pyListLt_boolLt.conn a.1 b.1 h1 h2) he

theorem boolLt_not_total {lt : α → α → Bool} (h : BoolLt lt) (a b : α) :
    (!lt b a) = true ∨ (!lt a b) = true := by
  by_cases hb : lt b a = true
  · right
    rw [h.asymm b a hb]
    rfl
  · left
    simp only [Bool.not_eq_true] at hb
    rw [hb]
    rfl

theorem boolLt_not_trans {lt : α → α → Bool} (h : BoolLt lt) {a b c : α} :
    (!lt b a) = true → (!lt c b) = true → (!lt c a) = true := by
  intro h1 h2
  simp only [Bool.not_eq_true'] at h1 h2 ⊢
  by_cases hab : lt a b = true
  · by_contra hca
    simp only [Bool.not_eq_false] at hca
    have := h.lt_trans c a b hca hab
    rw [this] at h2
    cases h2
  · simp only [Bool.not_eq_true] at hab
    rw [h.conn a b hab h1]
    exact h2

/-! Correctness, stability and reversal behaviour of the stable sort. -/

theorem pyInsert_perm (le : α → α → Bool) (a : α) :
    ∀ l : List α, pyInsert le a l ~ a :: l := by
  intro l
  induction l with
  | nil => exact List.Perm.refl _
  | cons b l ih =>
    simp only [pyInsert]
    by_cases hab : le a b = true
    · rw [if_pos hab]
    · rw [if_neg hab]
      exact (ih.cons b).trans (List.Perm.swap a b l)

theorem pySort_perm (le : α → α → Bool) : ∀ l : List α, pySort le l ~ l := by
  intro l
  induction l with
  | nil => exact List.Perm.refl _
  | cons a l ih => exact (pyInsert_perm le a (pySort le l)).trans (ih.cons a)

theorem sublist_pyInsert (le : α → α → Bool) (a : α) :
    ∀ l : List α, l <+ pyInsert le a l := by
  intro l
  induction l with
  | nil => exact List.nil_sublist _
  | cons b l ih =>
    simp only [pyInsert]
    by_cases hab : le a b = true
    · rw [if_pos hab]
      exact List.sublist_cons_self a (b :: l)
    · rw [if_neg hab]
      exact ih.cons₂ b

theorem cons_sublist_pyInsert {le : α → α → Bool} {a : α} :
    ∀ {l c : List α}, c <+ l → (∀ x ∈ c, le a x = true) → a :: c <+ pyInsert le a l := by
  intro l
  induction l with
  | nil =>
    intro c hc _
    rw [List.sublist_nil.mp hc]
    exact List.Sublist.refl _
  | cons b l ih =>
    intro c hc ha
    simp only [pyInsert]
    by_cases hab : le a b = true
    · rw [if_pos hab]
      exact hc.cons₂ a
    · rw [if_neg hab]
      cases hc with
      | cons _ h => exact (ih h ha).cons b
      | cons₂ _ h => exact absurd (ha b (List.mem_cons_self b _)) (by simp [hab])

theorem sublist_pySort {le : α → α → Bool} :
    ∀ {l c : List α}, c.Pairwise (fun x y => le x y = true) → c <+ l → c <+ pySort le l := by
  intro l
  induction l with
  | nil =>
    intro c _ hc
    rw [List.sublist_nil.mp hc]
    exact List.nil_sublist _
  | cons a l ih =>
    intro c hr hc
    show c <+ pyInsert le a (pySort le l)
    cases hc with
    | cons _ h => exact (ih hr h).trans (sublist_pyInsert le a (pySort le l))
    | cons₂ _ h =>
      obtain ⟨h1, h2⟩ := List.pairwise_cons.mp hr
      exact cons_sublist_pyInsert (ih h2 h) h1

theorem pairwise_pyInsert {le : α → α → Bool}
    (htot : ∀ a b, le a b = true ∨ le b a = true)
    (htr : ∀ a b c, le a b = true → le b c = true → le a c = true) (a : α) :
    ∀ l : List α, l.Pairwise (fun x y => le x y = true) →
      (pyInsert le a l).Pairwise (fun x y => le x y = true) := by
  intro l
  induction l with
  | nil =>
    intro _
    simp [pyInsert]
  | cons b l ih =>
    intro hp
    obtain ⟨hb, hl⟩ := List.pairwise_cons.mp hp
    simp only [pyInsert]
    by_cases hab : le a b = true
    · rw [if_pos hab]
      refine List.pairwise_cons.mpr ⟨?_, hp⟩
      intro x hx
      rcases List.mem_cons.mp hx with rfl | hx
      · exact hab
      · exact htr a b x hab (hb x hx)
    · rw [if_neg hab]
      refine List.pairwise_cons.mpr ⟨?_, ih hl⟩
      intro x hx
      have hx2 := (pyInsert_perm le a l).mem_iff.mp hx
      rcases List.mem_cons.mp hx2 with rfl | hx2
      · rcases htot x b with h | h
        · exact absurd h hab
        · exact h
      · exact hb x hx2

theorem pairwise_pySort {le : α → α → Bool}
    (htot : ∀ a b, le a b = true ∨ le b a = true)
    (htr : ∀ a b c, le a b = true → le b c = true → le a c = true) :
    ∀ l : List α, (pySort le l).Pairwise (fun x y => le x y = true) := by
  intro l
  induction l with
  | nil => exact List.Pairwise.nil
  | cons a l ih => exact pairwise_pyInsert htot htr a _ ih

theorem filter_pySort {le : α → α → Bool} {p : α → Bool}
    (hp : ∀ x y, p x = true → p y = true → le x y = true) (l : List α) :
    (pySort le l).filter p = l.filter p := by
  have hpair : (l.filter p).Pairwise (fun x y => le x y = true) := by
    apply List.pairwise_of_forall_mem_list
    intro x hx y hy
    exact hp x y (List.of_mem_filter hx) (List.of_mem_filter hy)
  have hsub : l.filter p <+ pySort le l := sublist_pySort hpair (List.filter_sublist l)
  have hsub2 : l.filter p <+ (pySort le l).filter p := by
    have h2 := hsub.filter p
    rwa [List.filter_filter, show (fun a => p a && p a) = p from funext (fun a => Bool.and_self _)]
      at h2
  have hlen : (l.filter p).length = ((pySort le l).filter p).length :=
    (((pySort_perm le l).filter p).length_eq).symm
  exact (hsub2.eq_of_length hlen).symm

theorem filter_pySorted {le : α → α → Bool} {p : α → Bool}
    (hp : ∀ x y, p x = true → p y = true → le x y = true) (rev : Bool) (l : List α) :
    (pySorted le rev l).filter p = l.filter p := by
  cases rev with
  | false => exact filter_pySort hp l
  | true =>
    show ((pySort le l.reverse).reverse.filter p) = l.filter p
    rw [List.filter_reverse, filter_pySort hp, ← List.filter_reverse, List.reverse_reverse]

theorem pySorted_perm (le : α → α → Bool) (rev : Bool) (l : List α) :
    pySorted le rev l ~ l := by
  cases rev with
  | false => exact pySort_perm le l
  | true =>
    show (pySort le l.reverse).reverse ~ l
    exact ((List.reverse_perm _).trans (pySort_perm le l.reverse)).trans (List.reverse_perm l)

theorem pySort_reverse_eq {le : α → α → Bool}
    (htot : ∀ a b, le a b = true ∨ le b a = true)
    (htr : ∀ a b c, le a b = true → le b c = true → le a c = true)
    (l : List α)
    (hanti : ∀ x ∈ l, ∀ y ∈ l, le x y = true → le y x = true → x = y) :
    pySort le l.reverse = pySort le l := by
  have hperm : pySort le l.reverse ~ pySort le l :=
    ((pySort_perm le l.reverse).trans (List.reverse_perm l)).trans (pySort_perm le l).symm
  refine List.Perm.eq_of_sorted ?_ (pairwise_pySort htot htr l.reverse)
    (pairwise_pySort htot htr l) hperm
  intro a b ha hb h1 h2
  have ha2 : a ∈ l := (List.reverse_perm l).subset ((pySort_perm le l.reverse).subset ha)
  have hb2 : b ∈ l := (pySort_perm le l).subset hb
  exact hanti a ha2 b hb2 h1 h2

/-! Behaviour of the error-propagating map. -/

theorem mapE_pairs_snd {g : α → Except ε (κ × α)}
    (hg : ∀ r k x, g r = .ok (k, x) → x = r) :
    ∀ {l : List α} {keyed : List (κ × α)},
      mapE g l = .ok keyed → keyed.map (fun x => x.2) = l := by
  intro l
  induction l with
  | nil =>
    intro keyed hk
    simp only [mapE] at hk
    cases hk
    rfl
  | cons a l ih =>
    intro keyed hk
    cases hha : g a with
    | error e =>
      simp only [mapE, hha] at hk
      cases hk
    | ok p =>
      cases hml : mapE g l with
      | error e =>
        simp only [mapE, hha, hml] at hk
        cases hk
      | ok bs =>
        simp only [mapE, hha, hml] at hk
        cases hk
        have hpa : p.2 = a := hg a p.1 p.2 (by rw [← hha])
        simp only [List.map_cons, ih hml, hpa]

theorem mapE_pairs_mem {g : α → Except ε (κ × α)} :
    ∀ {l : List α} {keyed : List (κ × α)},
      mapE g l = .ok keyed → ∀ x ∈ keyed, ∃ r ∈ l, g r = .ok x := by
  intro l
  induction l with
  | nil =>
    intro keyed hk
    simp only [mapE] at hk
    cases hk
    intro x hx
    cases hx
  | cons a l ih =>
    intro keyed hk
    cases hha : g a with
    | error e =>
      simp only [mapE, hha] at hk
      cases hk
    | ok p =>
      cases hml : mapE g l with
      | error e =>
        simp only [mapE, hha, hml] at hk
        cases hk
      | ok bs =>
        simp only [mapE, hha, hml] at hk
        cases hk
        intro x hx
        rcases List.mem_cons.mp hx with rfl | hx
        · exact ⟨a, List.mem_cons_self a l, hha⟩
        · obtain ⟨r, hr, hgr⟩ := ih hml x hx
          exact ⟨r, List.mem_cons_of_mem a hr, hgr⟩

theorem mapE_error_of_mem (g : α → Except ε β) {a : α} {e : ε} :
    ∀ {l : List α}, a ∈ l → g a = .error e → ∃ e2, mapE g l = .error e2 := by
  intro l
  induction l with
  | nil =>
    intro ha
    cases ha
  | cons b l ih =>
    intro ha he
    rcases List.mem_cons.mp ha with rfl | ha
    · refine ⟨e, ?_⟩
      simp only [mapE, he]
    · cases hgb : g b with
      | error e2 =>
        refine ⟨e2, ?_⟩
        simp only [mapE, hgb]
      | ok v =>
        obtain ⟨e2, h2⟩ := ih ha he
        refine ⟨e2, ?_⟩
        simp only [mapE, hgb, h2]

/-! Decimal digits, padded decimal strings, and their lexicographic order. -/

theorem charToNat_inj {a b : Char} (h : a.toNat = b.toNat) : a = b :=
  Char.ext (UInt32.ext h)

theorem charOfNat_toNat {n : Nat} (h : n < 55296) : (Char.ofNat n).toNat = n := by
  have hv : n.isValidChar := Or.inl h
  unfold Char.ofNat
  rw [dif_pos hv]
  show (Char.ofNatAux n hv).toNat = n
  unfold Char.ofNatAux
  simp [Char.toNat, UInt32.toNat]

theorem decDigitChar_toNat {d : Nat} (h : d < 10) : (decDigitChar d).toNat = 48 + d :=
  charOfNat_toNat (by omega)

theorem decDigitChar_inj {a b : Nat} (ha : a < 10) (hb : b < 10)
    (h : decDigitChar a = decDigitChar b) : a = b := by
  have h2 := congrArg Char.toNat h
  rw [decDigitChar_toNat ha, decDigitChar_toNat hb] at h2
  omega

theorem charLt_iff_toNat {a b : Char} : a < b ↔ a.toNat < b.toNat := Iff.rfl

theorem decDigitChar_lt {a b : Nat} (ha : a < 10) (hb : b < 10) :
    charLtB (decDigitChar a) (decDigitChar b) = true ↔ a < b := by
  simp only [charLtB, decide_eq_true_eq, charLt_iff_toNat,
    decDigitChar_toNat ha, decDigitChar_toNat hb]
  omega

theorem decDigitChar_isDigit {d : Nat} (h : d < 10) : isDigitCh (decDigitChar d) = true := by
  simp only [isDigitCh, decDigitChar_toNat h, Bool.and_eq_true, decide_eq_true_eq]
  omega

theorem isDigitCh_toNat {c : Char} (h : isDigitCh c = true) : 48 ≤ c.toNat ∧ c.toNat ≤ 57 := by
  simpa [isDigitCh] using h

theorem padNat_length (w n : Nat) : (padNat w n).length = w := by
  induction w generalizing n with
  | zero => rfl
  | succ w ih => simp [padNat, ih]

theorem charListLt_cons {x y : Char} {xs ys : List Char} :
    charListLt (x :: xs) (y :: ys) = if x = y then charListLt xs ys else charLtB x y := rfl

theorem padNat_lt_iff : ∀ w : Nat, ∀ a b : Nat, a < 10 ^ w → b < 10 ^ w →
    (charListLt (padNat w a) (padNat w b) = true ↔ a < b) := by
  intro w
  induction w with
  | zero =>
    intro a b ha hb
    simp only [pow_zero, Nat.lt_one_iff] at ha hb
    subst ha
    subst hb
    simp [padNat, charListLt, listLtBy]
  | succ w ih =>
    intro a b ha hb
    have hpw : 0 < (10 : Nat) ^ w := Nat.pos_pow_of_pos w (by norm_num)
    have hpow : (10 : Nat) ^ (w + 1) = 10 ^ w * 10 := pow_succ 10 w
    have hda : a / 10 ^ w < 10 := (Nat.div_lt_iff_lt_mul hpw).mpr (by omega)
    have hdb : b / 10 ^ w < 10 := (Nat.div_lt_iff_lt_mul hpw).mpr (by omega)
    have hma : a % 10 ^ w < 10 ^ w := Nat.mod_lt _ hpw
    have hmb : b % 10 ^ w < 10 ^ w := Nat.mod_lt _ hpw
    show charListLt (decDigitChar (a / 10 ^ w) :: padNat w (a % 10 ^ w))
        (decDigitChar (b / 10 ^ w) :: padNat w (b % 10 ^ w)) = true ↔ a < b
    rw [charListLt_cons]
    by_cases hd : a / 10 ^ w = b / 10 ^ w
    · rw [if_pos (by rw [hd]), ih _ _ hma hmb]
      constructor
      · intro h
        calc a = 10 ^ w * (a / 10 ^ w) + a % 10 ^ w := (Nat.div_add_mod a (10 ^ w)).symm
          _ < 10 ^ w * (b / 10 ^ w) + b % 10 ^ w := by rw [hd]; exact Nat.add_lt_add_left h _
          _ = b := Nat.div_add_mod b (10 ^ w)
      · intro h
        by_contra hnot
        push_neg at hnot
        have hba : b ≤ a := by
          calc b = 10 ^ w * (b / 10 ^ w) + b % 10 ^ w := (Nat.div_add_mod b (10 ^ w)).symm
            _ ≤ 10 ^ w * (a / 10 ^ w) + a % 10 ^ w := by
                rw [hd]; exact Nat.add_le_add_left hnot _
            _ = a := Nat.div_add_mod a (10 ^ w)
        omega
    · rw [if_neg (fun e => hd (decDigitChar_inj hda hdb e)), decDigitChar_lt hda hdb]
      constructor
      · intro h
        exact Nat.lt_of_div_lt_div h
      · intro h
        exact lt_of_le_of_ne (Nat.div_le_div_right (le_of_lt h)) hd

theorem padNat_inj {w a b : Nat} (ha : a < 10 ^ w) (hb : b < 10 ^ w)
    (h : padNat w a = padNat w b) : a = b := by
  rcases Nat.lt_trichotomy a b with hab | hab | hab
  · have := (padNat_lt_iff w a b ha hb).mpr hab
    rw [h] at this
    rw [charListLt_boolLt.irrefl] at this
    cases this
  · exact hab
  · have := (padNat_lt_iff w b a hb ha).mpr hab
    rw [h] at this
    rw [charListLt_boolLt.irrefl] at this
    cases this

theorem padNat_zero : ∀ w : Nat, padNat w 0 = List.replicate w '0' := by
  intro w
  induction w with
  | zero => rfl
  | succ w ih =>
    show decDigitChar (0 / 10 ^ w) :: padNat w (0 % 10 ^ w) = _
    rw [Nat.zero_div, Nat.zero_mod, ih]
    rfl

theorem charListLt_append {u v : List Char} (s t : List Char) (h : u.length = v.length) :
    charListLt (u ++ s) (v ++ t) = if u = v then charListLt s t else charListLt u v := by
  induction u generalizing v with
  | nil =>
    cases v with
    | nil => simp
    | cons y ys => simp at h
  | cons x xs ih =>
    cases v with
    | nil => simp at h
    | cons y ys =>
      simp only [List.length_cons, Nat.succ.injEq] at h
      show charListLt (x :: (xs ++ s)) (y :: (ys ++ t)) = _
      rw [charListLt_cons]
      by_cases hxy : x = y
      · subst hxy
        rw [if_pos rfl, ih h]
        by_cases hv : xs = ys
        · subst hv
          rw [if_pos rfl, if_pos rfl]
        · rw [if_neg hv, if_neg (fun e => hv (by injection e)), charListLt_cons, if_pos rfl]
      · rw [if_neg hxy, if_neg (fun e => hxy (by injection e)), charListLt_cons, if_neg hxy]

/-! The decimal rendering of natural numbers and its relation to padding. -/

theorem natToCharsAux_congr : ∀ f1 f2 n : Nat, n < f1 → n < f2 →
    natToCharsAux f1 n = natToCharsAux f2 n := by
  intro f1
  induction f1 with
  | zero =>
    intro f2 n h1 _
    exact absurd h1 (Nat.not_lt_zero n)
  | succ f1 ih =>
    intro f2 n h1 h2
    cases f2 with
    | zero => exact absurd h2 (Nat.not_lt_zero n)
    | succ f2 =>
      simp only [natToCharsAux]
      by_cases hn : n < 10
      · rw [if_pos hn, if_pos hn]
      · rw [if_neg hn, if_neg hn]
        have hd : n / 10 < n := Nat.div_lt_self (by omega) (by norm_num)
        rw [ih f2 (n / 10) (by omega) (by omega)]

theorem natToChars_eq (n : Nat) : natToChars n =
    if n < 10 then [decDigitChar n] else natToChars (n / 10) ++ [decDigitChar (n % 10)] := by
  show natToCharsAux (n + 1) n = _
  by_cases hn : n < 10
  · simp only [natToCharsAux, if_pos hn]
  · simp only [natToCharsAux, if_neg hn]
    have hd : n / 10 < n := Nat.div_lt_self (by omega) (by norm_num)
    rw [natToCharsAux_congr n (n / 10 + 1) (n / 10) (by omega) (Nat.lt_succ_self _)]
    rfl

theorem natToChars_ne_nil (n : Nat) : natToChars n ≠ [] := by
  rw [natToChars_eq]
  by_cases hn : n < 10
  · rw [if_pos hn]
    simp
  · rw [if_neg hn]
    simp

theorem natToChars_length_le : ∀ w n : Nat, 1 ≤ w → n < 10 ^ w → (natToChars n).length ≤ w := by
  intro w
  induction w with
  | zero =>
    intro n h
    omega
  | succ w ih =>
    intro n _ hn
    rw [natToChars_eq]
    by_cases h10 : n < 10
    · rw [if_pos h10]
      simp
    · rw [if_neg h10]
      have hw : 1 ≤ w := by
        rcases Nat.eq_zero_or_pos w with hw0 | hw0
        · subst hw0
          norm_num at hn
          omega
        · exact hw0
      have hdiv : n / 10 < 10 ^ w := by
        rw [Nat.div_lt_iff_lt_mul (by norm_num)]
        calc n < 10 ^ (w + 1) := hn
          _ = 10 ^ w * 10 := pow_succ 10 w
      have hlen := ih (n / 10) hw hdiv
      simp only [List.length_append, List.length_cons, List.length_nil]
      omega

theorem natToChars_digits : ∀ n : Nat, ∀ c ∈ natToChars n, isDigitCh c = true := by
  intro n
  induction n using Nat.strong_induction_on with
  | _ n ih =>
    rw [natToChars_eq]
    by_cases hn : n < 10
    · rw [if_pos hn]
      intro c hc
      simp only [List.mem_singleton] at hc
      subst hc
      exact decDigitChar_isDigit hn
    · rw [if_neg hn]
      intro c hc
      rcases List.mem_append.mp hc with hc | hc
      · exact ih (n / 10) (Nat.div_lt_self (by omega) (by norm_num)) c hc
      · simp only [List.mem_singleton] at hc
        subst hc
        exact decDigitChar_isDigit (Nat.mod_lt _ (by norm_num))

theorem natToChars_head_ne_zero : ∀ n : Nat, n ≠ 0 → ∀ c : Char,
    (natToChars n).head? = some c → c ≠ '0' := by
  intro n
  induction n using Nat.strong_induction_on with
  | _ n ih =>
    intro hn c hc
    rw [natToChars_eq] at hc
    by_cases h10 : n < 10
    · rw [if_pos h10] at hc
      simp only [List.head?_cons, Option.some.injEq] at hc
      subst hc
      intro he
      have h2 := congrArg Char.toNat he
      rw [decDigitChar_toNat h10] at h2
      have h0 : ('0').toNat = 48 := rfl
      omega
    · rw [if_neg h10] at hc
      cases hl : natToChars (n / 10) with
      | nil => exact absurd hl (natToChars_ne_nil _)
      | cons d ds =>
        rw [hl] at hc
        simp only [List.cons_append, List.head?_cons, Option.some.injEq] at hc
        rw [← hc]
        exact ih (n / 10) (Nat.div_lt_self (by omega) (by norm_num)) (by omega) d
          (by rw [hl]; rfl)

theorem stripLeadingZeros_natToChars (n : Nat) :
    stripLeadingZeros (natToChars n) = natToChars n := by
  by_cases hn : n = 0
  · subst hn
    rfl
  · cases hl : natToChars n with
    | nil => exact absurd hl (natToChars_ne_nil n)
    | cons c rest =>
      have hc : c ≠ '0' := natToChars_head_ne_zero n hn c (by rw [hl]; rfl)
      simp only [stripLeadingZeros]
      rw [if_neg (fun h => hc h.1)]

theorem padNat_succ {w n : Nat} (h : n < 10 ^ (w + 1)) :
    padNat (w + 1) n = padNat w (n / 10) ++ [decDigitChar (n % 10)] := by
  induction w generalizing n with
  | zero =>
    norm_num at h
    show decDigitChar (n / 10 ^ 0) :: padNat 0 (n % 10 ^ 0) = _
    simp only [pow_zero, Nat.div_one, Nat.mod_one, padNat, List.nil_append]
    rw [Nat.mod_eq_of_lt h]
  | succ w ih =>
    have hpw : 0 < (10 : Nat) ^ (w + 1) := Nat.pos_pow_of_pos _ (by norm_num)
    show decDigitChar (n / 10 ^ (w + 1)) :: padNat (w + 1) (n % 10 ^ (w + 1)) = _
    rw [ih (Nat.mod_lt _ hpw)]
    have e1 : n % 10 ^ (w + 1) % 10 = n % 10 :=
      Nat.mod_mod_of_dvd n (dvd_pow_self 10 (Nat.succ_ne_zero w))
    have e2 : n % 10 ^ (w + 1) / 10 = n / 10 % 10 ^ w := by
      rw [pow_succ']
      exact Nat.mod_mul_right_div_self n 10 (10 ^ w)
    have e3 : n / 10 / 10 ^ w = n / 10 ^ (w + 1) := by
      rw [Nat.div_div_eq_div_mul, ← pow_succ']
    show decDigitChar (n / 10 ^ (w + 1)) ::
        (padNat w (n % 10 ^ (w + 1) / 10) ++ [decDigitChar (n % 10 ^ (w + 1) % 10)]) = _
    rw [e1, e2]
    show _ = (decDigitChar (n / 10 / 10 ^ w) :: padNat w (n / 10 % 10 ^ w)) ++ _
    rw [e3]
    simp [List.cons_append]

theorem padNat_eq_replicate : ∀ w n : Nat, 1 ≤ w → n < 10 ^ w →
    padNat w n = List.replicate (w - (natToChars n).length) '0' ++ natToChars n := by
  intro w
  induction w with
  | zero =>
    intro n h
    omega
  | succ w ih =>
    intro n _ hn
    by_cases hw0 : w = 0
    · subst hw0
      have h10 : n < 10 := by simpa using hn
      rw [natToChars_eq, if_pos h10]
      show decDigitChar (n / 10 ^ 0) :: padNat 0 (n % 10 ^ 0) = _
      simp [padNat, Nat.div_one]
    · have hw : 1 ≤ w := by omega
      rw [padNat_succ hn]
      by_cases h10 : n < 10
      · rw [Nat.div_eq_of_lt h10, padNat_zero, natToChars_eq, if_pos h10,
          Nat.mod_eq_of_lt h10]
        simp
      · have hdiv : n / 10 < 10 ^ w := by
          rw [Nat.div_lt_iff_lt_mul (by norm_num)]
          calc n < 10 ^ (w + 1) := hn
            _ = 10 ^ w * 10 := pow_succ 10 w
        have hne : natToChars n = natToChars (n / 10) ++ [decDigitChar (n % 10)] := by
          rw [natToChars_eq, if_neg h10]
        rw [ih (n / 10) hw hdiv, hne, List.append_assoc]
        congr 2
        simp only [List.length_append, List.length_cons, List.length_nil]
        omega

/-! Upper-casing, sign handling, zero filling, and the float round trip on
natural-number literals. -/

theorem toUpper_of_lt97 {c : Char} (h : c.toNat < 97) : Char.toUpper c = c := by
  unfold Char.toUpper
  exact if_neg (fun hc => by omega)

theorem toUpper_idem (c : Char) : Char.toUpper (Char.toUpper c) = Char.toUpper c := by
  by_cases h : 97 ≤ c.toNat ∧ c.toNat ≤ 122
  · have hup : Char.toUpper c = Char.ofNat (c.toNat - 32) := by
      unfold Char.toUpper
      exact if_pos h
    rw [hup]
    exact toUpper_of_lt97 (by rw [charOfNat_toNat (by omega)]; omega)
  · have hup : Char.toUpper c = c := by
      unfold Char.toUpper
      exact if_neg h
    rw [hup, hup]

theorem toUpper_eq_of_lt65 {c u : Char} (h : Char.toUpper c = u) (hu : u.toNat < 65) :
    c = u := by
  by_cases hc : 97 ≤ c.toNat ∧ c.toNat ≤ 122
  · exfalso
    have he : Char.toUpper c = Char.ofNat (c.toNat - 32) := by
      unfold Char.toUpper
      exact if_pos hc
    rw [he] at h
    have h2 := congrArg Char.toNat h
    rw [charOfNat_toNat (by omega)] at h2
    omega
  · have he : Char.toUpper c = c := by
      unfold Char.toUpper
      exact if_neg hc
    rw [he] at h
    exact h

theorem pyUpper_fixed {s : String} (h : ∀ c ∈ s.data, c.toNat < 97) : pyUpper s = s := by
  cases s with
  | mk cs =>
    show String.mk (cs.map Char.toUpper) = String.mk cs
    congr 1
    calc cs.map Char.toUpper = cs.map id :=
          List.map_congr_left (fun c hc => toUpper_of_lt97 (h c hc))
      _ = cs := List.map_id cs

theorem pyUpper_idem (s : String) : pyUpper (pyUpper s) = pyUpper s := by
  cases s with
  | mk cs =>
    show String.mk ((cs.map Char.toUpper).map Char.toUpper) = String.mk (cs.map Char.toUpper)
    congr 1
    rw [List.map_map]
    exact List.map_congr_left (fun c _ => toUpper_idem c)

theorem splitSign_of_head {cs : List Char}
    (h : ∀ c, cs.head? = some c → c ≠ '-' ∧ c ≠ '+') : splitSign cs = (false, cs) := by
  cases cs with
  | nil => rfl
  | cons c r =>
    obtain ⟨h1, h2⟩ := h c rfl
    simp only [splitSign, if_neg h1, if_neg h2]

theorem dropTrailingZeros_nil : dropTrailingZeros [] = [] := rfl

theorem zfillChars_no_sign {cs : List Char}
    (h : ∀ c, cs.head? = some c → c ≠ '-' ∧ c ≠ '+') (w : Nat) :
    zfillChars w cs = List.replicate (w - cs.length) '0' ++ cs := by
  cases cs with
  | nil => simp [zfillChars]
  | cons c rest =>
    obtain ⟨h1, h2⟩ := h c rfl
    simp only [zfillChars]
    by_cases hw : w ≤ (c :: rest).length
    · rw [if_pos hw]
      have h0 : w - (c :: rest).length = 0 := by omega
      rw [h0]
      rfl
    · rw [if_neg hw, if_neg (fun hor => hor.elim h1 h2)]

theorem digit_head_not_sign {cs : List Char} (hdig : ∀ c ∈ cs, isDigitCh c = true) :
    ∀ c, cs.head? = some c → c ≠ '-' ∧ c ≠ '+' := by
  intro c hc
  have hcd : isDigitCh c = true := by
    cases hl : cs with
    | nil =>
      rw [hl] at hc
      cases hc
    | cons d ds =>
      rw [hl] at hc
      simp only [List.head?_cons, Option.some.injEq] at hc
      rw [← hc]
      exact hdig d (by rw [hl]; exact List.mem_cons_self d ds)
  obtain ⟨hc1, hc2⟩ := isDigitCh_toNat hcd
  have hm : ('-').toNat = 45 := rfl
  have hp : ('+').toNat = 43 := rfl
  constructor
  · intro he
    rw [he, hm] at hc1
    omega
  · intro he
    rw [he, hp] at hc1
    omega

theorem parseDec_natRepr {a : Nat} (ha : a < 10 ^ 15) :
    parseDec (natRepr a) = some (Dec.mk false (natToChars a) []) := by
  have hdig : ∀ c ∈ natToChars a, isDigitCh c = true := natToChars_digits a
  have hsplit : splitSign (natToChars a) = (false, natToChars a) :=
    splitSign_of_head (digit_head_not_sign hdig)
  have hdot : ∀ c ∈ natToChars a, (decide (c ≠ '.')) = true := by
    intro c hc
    obtain ⟨h1, h2⟩ := isDigitCh_toNat (hdig c hc)
    simp only [decide_eq_true_eq]
    intro he
    have hq : ('.').toNat = 46 := rfl
    rw [he, hq] at h1
    omega
  have htake : (natToChars a).takeWhile (fun c => decide (c ≠ '.')) = natToChars a :=
    List.takeWhile_eq_self_iff.mpr hdot
  have hdrop : (natToChars a).dropWhile (fun c => decide (c ≠ '.')) = [] :=
    List.dropWhile_eq_nil_iff.mpr hdot
  have hlen15 : (natToChars a).length ≤ 15 := natToChars_length_le 15 a (by norm_num) ha
  have hnn := natToChars_ne_nil a
  show parseDec (String.mk (natToChars a)) = _
  unfold parseDec
  simp only [hsplit, htake, hdrop, List.tail_nil, dropTrailingZeros_nil, if_neg hnn,
    stripLeadingZeros_natToChars]
  rw [if_pos]
  refine ⟨List.all_eq_true.mpr hdig, rfl, Or.inl hnn, hlen15, ?_⟩
  by_cases hip : natToChars a = ['0']
  · rw [if_pos hip]
    exact ⟨by simp, Or.inl trivial⟩
  · rw [if_neg hip]
    simpa using hlen15

theorem head?_append_left {l l' : List α} (h : l ≠ []) : (l ++ l').head? = l.head? := by
  cases l with
  | nil => exact absurd rfl h
  | cons a t => rfl

theorem numNormalize_natRepr {a : Nat} (ha : a < 10 ^ 13) :
    (numNormalize (natRepr a)).data = padNat 13 a ++ ['.', '0'] := by
  have ha15 : a < 10 ^ 15 := lt_of_lt_of_le ha (by norm_num)
  have hp := parseDec_natRepr ha15
  have hrender : renderFloat (Dec.mk false (natToChars a) []) =
      String.mk (natToChars a ++ ['.', '0']) := by
    unfold renderFloat
    simp
  have hhead : ∀ c, (natToChars a ++ ['.', '0']).head? = some c → c ≠ '-' ∧ c ≠ '+' := by
    rw [head?_append_left (natToChars_ne_nil a)]
    exact digit_head_not_sign (natToChars_digits a)
  unfold numNormalize pyStrFloat
  rw [hp]
  show (zfill 15 (renderFloat (Dec.mk false (natToChars a) []))).data = _
  rw [hrender]
  show zfillChars 15 (natToChars a ++ ['.', '0']) = _
  rw [zfillChars_no_sign hhead 15]
  rw [padNat_eq_replicate 13 a (by norm_num) ha, List.append_assoc]
  congr 2
  simp only [List.length_append, List.length_cons, List.length_nil]
  omega

theorem numNormalize_natRepr_length {a : Nat} (ha : a < 10 ^ 13) :
    (numNormalize (natRepr a)).data.length = 15 := by
  rw [numNormalize_natRepr ha]
  simp [padNat_length]

theorem pyStrLt_numKey_nat {a b : Nat} (ha : a < 10 ^ 13) (hb : b < 10 ^ 13) :
    (pyStrLt (numNormalize (natRepr a)) (numNormalize (natRepr b)) = true ↔ a < b) := by
  unfold pyStrLt
  rw [numNormalize_natRepr ha, numNormalize_natRepr hb]
  rw [charListLt_append _ _ (by rw [padNat_length, padNat_length])]
  by_cases he : padNat 13 a = padNat 13 b
  · rw [if_pos he]
    have hab := padNat_inj ha hb he
    subst hab
    rw [charListLt_boolLt.irrefl]
    simp
  · rw [if_neg he]
    exact padNat_lt_iff 13 a b ha hb

/-! Date parsing, formatting, and chronological order versus lexicographic
order of the formatted dates. -/

theorem padNat_digits : ∀ w n : Nat, n < 10 ^ w → ∀ c ∈ padNat w n, isDigitCh c = true := by
  intro w
  induction w with
  | zero =>
    intro n _ c hc
    cases hc
  | succ w ih =>
    intro n hn c hc
    have hpw : 0 < (10 : Nat) ^ w := Nat.pos_pow_of_pos _ (by norm_num)
    have hda : n / 10 ^ w < 10 := by
      rw [Nat.div_lt_iff_lt_mul hpw]
      calc n < 10 ^ (w + 1) := hn
        _ = 10 * 10 ^ w := by ring
    rcases List.mem_cons.mp hc with rfl | hc
    · exact decDigitChar_isDigit hda
    · exact ih (n % 10 ^ w) (Nat.mod_lt _ hpw) c hc

theorem daysInMonth_le (y m : Nat) : daysInMonth y m ≤ 31 := by
  unfold daysInMonth
  split
  · split
    · omega
    · omega
  · split
    · omega
    · omega

theorem parseISODate_bounds {s : String} {d : PyDate} (h : parseISODate s = some d) :
    1000 ≤ d.year ∧ d.year < 10 ^ 4 ∧ 1 ≤ d.month ∧ d.month < 10 ^ 2
      ∧ 1 ≤ d.day ∧ d.day < 10 ^ 2 := by
  unfold parseISODate at h
  split at h
  · split at h
    · split at h
      · rename_i c1 c2 c3 c4 e1 c5 c6 e2 c7 c8 heq hds hok
        injection h with h2
        subst h2
        obtain ⟨hy, hm1, hm2, hd1, hd2⟩ := hok
        have hdm := daysInMonth_le ((isoDateOf c1 c2 c3 c4 c5 c6 c7 c8).year)
          ((isoDateOf c1 c2 c3 c4 c5 c6 c7 c8).month)
        refine ⟨hy, ?_, hm1, by norm_num; omega, hd1, by norm_num; omega⟩
        obtain ⟨he1, he2, h1, h2, h3, h4, h5, h6, h7, h8⟩ := hds
        have b1 := isDigitCh_toNat h1
        have b2 := isDigitCh_toNat h2
        have b3 := isDigitCh_toNat h3
        have b4 := isDigitCh_toNat h4
        show digitVal c1 * 1000 + digitVal c2 * 100 + digitVal c3 * 10 + digitVal c4 < 10 ^ 4
        unfold digitVal
        norm_num
        omega
      · cases h
    · cases h
  · cases h

theorem formatDate_ne_empty (d : PyDate) : formatDate d ≠ "" := by
  intro h
  have h2 := congrArg String.data h
  simp only [formatDate] at h2
  have h3 := congrArg List.length h2
  simp only [List.length_append, List.length_cons, padNat_length] at h3
  simp at h3

theorem formatDate_chars {d : PyDate} (hy : d.year < 10 ^ 4) (hm : d.month < 10 ^ 2)
    (hd : d.day < 10 ^ 2) : ∀ c ∈ (formatDate d).data, c.toNat < 97 := by
  intro c hc
  simp only [formatDate, List.mem_append, List.mem_cons] at hc
  have hdash : ('-').toNat = 45 := rfl
  rcases hc with hc | hc | hc | hc | hc
  · have := isDigitCh_toNat (padNat_digits 4 d.year hy c hc)
    omega
  · rw [hc, hdash]
    omega
  · have := isDigitCh_toNat (padNat_digits 2 d.month hm c hc)
    omega
  · rw [hc, hdash]
    omega
  · have := isDigitCh_toNat (padNat_digits 2 d.day hd c hc)
    omega

theorem pyUpper_formatDate {d : PyDate} (hy : d.year < 10 ^ 4) (hm : d.month < 10 ^ 2)
    (hd : d.day < 10 ^ 2) : pyUpper (formatDate d) = formatDate d :=
  pyUpper_fixed (formatDate_chars hy hm hd)

theorem formatDate_lt_iff {d1 d2 : PyDate}
    (hy1 : d1.year < 10 ^ 4) (hm1 : d1.month < 10 ^ 2) (hd1 : d1.day < 10 ^ 2)
    (hy2 : d2.year < 10 ^ 4) (hm2 : d2.month < 10 ^ 2) (hd2 : d2.day < 10 ^ 2) :
    (charListLt (formatDate d1).data (formatDate d2).data = true ↔ dateBefore d1 d2) := by
  show charListLt (padNat 4 d1.year ++ '-' :: (padNat 2 d1.month ++ '-' :: padNat 2 d1.day))
    (padNat 4 d2.year ++ '-' :: (padNat 2 d2.month ++ '-' :: padNat 2 d2.day)) = true
    ↔ dateBefore d1 d2
  rw [charListLt_append _ _ (by rw [padNat_length, padNat_length])]
  by_cases hy : padNat 4 d1.year = padNat 4 d2.year
  · have hyy := padNat_inj hy1 hy2 hy
    rw [if_pos hy, charListLt_cons, if_pos rfl,
      charListLt_append _ _ (by rw [padNat_length, padNat_length])]
    by_cases hm : padNat 2 d1.month = padNat 2 d2.month
    · have hmm := padNat_inj hm1 hm2 hm
      rw [if_pos hm, charListLt_cons, if_pos rfl, padNat_lt_iff 2 _ _ hd1 hd2]
      unfold dateBefore
      constructor
      · intro h
        exact Or.inr ⟨hyy, Or.inr ⟨hmm, h⟩⟩
      · intro h
        rcases h with h | ⟨_, h | ⟨_, h⟩⟩
        · omega
        · omega
        · exact h
    · have hmm : d1.month ≠ d2.month := fun e => hm (by rw [e])
      rw [if_neg hm, padNat_lt_iff 2 _ _ hm1 hm2]
      unfold dateBefore
      constructor
      · intro h
        exact Or.inr ⟨hyy, Or.inl h⟩
      · intro h
        rcases h with h | ⟨_, h | ⟨he, _⟩⟩
        · omega
        · exact h
        · exact absurd he hmm
  · have hyy : d1.year ≠ d2.year := fun e => hy (by rw [e])
    rw [if_neg hy, padNat_lt_iff 4 _ _ hy1 hy2]
    unfold dateBefore
    constructor
    · intro h
      exact Or.inl h
    · intro h
      rcases h with h | ⟨he, _⟩
      · exact h
      · exact absurd he hyy

/-! Behaviour of the key-extraction closure on its three branches, and error
propagation through make_key and the full sort pass. -/

theorem isPrefixCh_cons_head {a b : Char} {u w : List Char}
    (h : isPrefixCh (a :: u) (b :: w) = true) : a = b := by
  simp only [isPrefixCh, Bool.and_eq_true, decide_eq_true_eq] at h
  exact h.1

theorem endsWith_date_not_numdeg {t : String} (h : pyEndsWith t "_date" = true) :
    (pyEndsWith t "_num" || pyEndsWith t "_deg") = false := by
  have hdate : ("_date" : String).data.reverse = ['e', 't', 'a', 'd', '_'] := rfl
  have hnum : ("_num" : String).data.reverse = ['m', 'u', 'n', '_'] := rfl
  have hdeg : ("_deg" : String).data.reverse = ['g', 'e', 'd', '_'] := rfl
  unfold pyEndsWith at h ⊢
  rw [hdate] at h
  rw [hnum, hdeg]
  cases hw : t.data.reverse with
  | nil =>
    rw [hw] at h
    simp [isPrefixCh] at h
  | cons b w =>
    rw [hw] at h
    have hb := isPrefixCh_cons_head h
    have h1 : isPrefixCh ['m', 'u', 'n', '_'] (b :: w) = false := by
      cases hx : isPrefixCh ['m', 'u', 'n', '_'] (b :: w) with
      | false => rfl
      | true =>
        have h2 := isPrefixCh_cons_head hx
        rw [← hb] at h2
        exact absurd h2 (by decide)
    have h2 : isPrefixCh ['g', 'e', 'd', '_'] (b :: w) = false := by
      cases hx : isPrefixCh ['g', 'e', 'd', '_'] (b :: w) with
      | false => rfl
      | true =>
        have h3 := isPrefixCh_cons_head hx
        rw [← hb] at h3
        exact absurd h3 (by decide)
    rw [h1, h2]
    rfl

theorem numNormalize_of_fail {v : String} (h : pyStrFloat v = none) : numNormalize v = v := by
  unfold numNormalize
  rw [h]

theorem getKeyValue_some {p : TagPattern} {row : Row} {v : String}
    (hv : TagPattern.get_value p row = some v) :
    getKeyValue p row =
      if (pyEndsWith p.tag "_num" || pyEndsWith p.tag "_deg") = true then
        Except.ok (if numNormalize v = "" then "" else pyUpper (numNormalize v))
      else
        if pyEndsWith p.tag "_date" = true then
          match parseISODate v with
          | some d => Except.ok (if formatDate d = "" then "" else pyUpper (formatDate d))
          | none => Except.error (SortError.dateParse v)
        else Except.ok (if v = "" then "" else pyUpper v) := by
  unfold getKeyValue
  rw [hv]

theorem getKeyValue_num_fallback {p : TagPattern} {row : Row} {v : String}
    (htag : (pyEndsWith p.tag "_num" || pyEndsWith p.tag "_deg") = true)
    (hv : TagPattern.get_value p row = some v)
    (hfail : pyStrFloat v = none) :
    getKeyValue p row = .ok (if v = "" then "" else pyUpper v) := by
  rw [getKeyValue_some hv, if_pos htag, numNormalize_of_fail hfail]

theorem getKeyValue_date_ok {p : TagPattern} {row : Row} {v : String} {d : PyDate}
    (htag : pyEndsWith p.tag "_date" = true)
    (hv : TagPattern.get_value p row = some v)
    (hd : parseISODate v = some d) :
    getKeyValue p row = .ok (formatDate d) := by
  obtain ⟨_, hy2, _, hm2, _, hd2⟩ := parseISODate_bounds hd
  rw [getKeyValue_some hv, if_neg (by rw [endsWith_date_not_numdeg htag]; simp),
    if_pos htag, hd]
  show Except.ok (if formatDate d = "" then "" else pyUpper (formatDate d)) = _
  rw [if_neg (formatDate_ne_empty d), pyUpper_formatDate hy2 hm2 hd2]

theorem getKeyValue_date_error {p : TagPattern} {row : Row} {v : String}
    (htag : pyEndsWith p.tag "_date" = true)
    (hv : TagPattern.get_value p row = some v)
    (hd : parseISODate v = none) :
    getKeyValue p row = .error (.dateParse v) := by
  rw [getKeyValue_some hv, if_neg (by rw [endsWith_date_not_numdeg htag]; simp),
    if_pos htag, hd]

theorem makeKey_error {f : SortFilter} {row : Row} {p : TagPattern} {e : SortError}
    (hp : p ∈ f.sort_tags) (he : getKeyValue p row = .error e) :
    ∃ e2, makeKey f row = .error e2 := by
  unfold makeKey
  rw [if_neg (List.ne_nil_of_mem hp)]
  exact mapE_error_of_mem (fun q => getKeyValue q row) hp he

theorem sortFilterRows_error {f : SortFilter} {r : Row} {e : SortError}
    (hr : r ∈ f.source.rows) (hk : makeKey f r = .error e) :
    ∃ e2, sortFilterRows f = .error e2 := by
  have hg : (makeKey f r).map (fun k => ((k, r) : List String × Row)) = .error e := by
    rw [hk]
    rfl
  obtain ⟨e2, h2⟩ := mapE_error_of_mem
    (fun r0 => (makeKey f r0).map (fun k => ((k, r0) : List String × Row))) hr hg
  refine ⟨e2, ?_⟩
  unfold sortFilterRows
  rw [h2]

theorem sortFilterRows_ok {f : SortFilter} {out : List Row}
    (h : sortFilterRows f = .ok out) :
    ∃ keyed : List (List String × Row),
      mapE (fun r => (makeKey f r).map (fun k => ((k, r) : List String × Row))) f.source.rows
          = .ok keyed
        ∧ out = (pySorted pairLE f.reverse keyed).map (fun x => x.2) := by
  unfold sortFilterRows at h
  cases hm : mapE (fun r => (makeKey f r).map (fun k => ((k, r) : List String × Row)))
      f.source.rows with
  | error e =>
    rw [hm] at h
    cases h
  | ok keyed =>
    rw [hm] at h
    injection h with h
    exact ⟨keyed, rfl, h.symm⟩

theorem decorate_ok {f : SortFilter} {r : Row} {k : List String} {x : Row}
    (h : (makeKey f r).map (fun k => ((k, r) : List String × Row)) = .ok (k, x)) :
    x = r ∧ makeKey f x = .ok k := by
  cases hm : makeKey f r with
  | error e =>
    rw [hm] at h
    simp [Except.map] at h
  | ok k0 =>
    rw [hm] at h
    simp only [Except.map, Except.ok.injEq, Prod.mk.injEq] at h
    obtain ⟨hk, hx⟩ := h
    subst hk
    subst hx
    exact ⟨rfl, hm⟩

/-! The stats dictionary of the Count Stage. -/

theorem statsGet_nil (k : List String) : statsGet [] k = none := rfl

theorem statsGet_cons (p : List String × Nat) (stats : List (List String × Nat))
    (k : List String) :
    statsGet (p :: stats) k = if p.1 = k then some p.2 else statsGet stats k := by
  by_cases h : p.1 = k
  · rw [if_pos h]
    unfold statsGet
    simp [List.find?, h]
  · rw [if_neg h]
    unfold statsGet
    simp [List.find?, h]

theorem statsGet_none_iff (stats : List (List String × Nat)) (k : List String) :
    statsGet stats k = none ↔ k ∉ statsKeys stats := by
  induction stats with
  | nil => simp [statsGet_nil, statsKeys]
  | cons p rest ih =>
    rw [statsGet_cons]
    simp only [statsKeys, List.map_cons, List.mem_cons]
    by_cases h : p.1 = k
    · rw [if_pos h]
      simp [h]
    · rw [if_neg h]
      rw [ih]
      simp only [statsKeys]
      constructor
      · intro h2
        push_neg
        exact ⟨fun e => h e.symm, h2⟩
      · intro h2
        push_neg at h2
        exact h2.2

theorem find?_isSome_iff (stats : List (List String × Nat)) (k : List String) :
    (stats.find? (fun p => decide (p.1 = k))).isSome = true ↔ k ∈ statsKeys stats := by
  have h1 : (stats.find? (fun p => decide (p.1 = k))).isSome = true
      ↔ ¬ statsGet stats k = none := by
    unfold statsGet
    cases stats.find? (fun p => decide (p.1 = k)) with
    | none => simp
    | some p => simp
  rw [h1, statsGet_none_iff]
  exact not_not

theorem replaceEntry_get_self {k : List String} (v : Nat) :
    ∀ stats : List (List String × Nat), k ∈ statsKeys stats →
      statsGet (stats.map (fun p => if p.1 = k then (k, v) else p)) k = some v := by
  intro stats
  induction stats with
  | nil =>
    intro h
    cases h
  | cons p rest ih =>
    intro hmem
    simp only [List.map_cons]
    by_cases hp : p.1 = k
    · rw [if_pos hp, statsGet_cons]
      simp
    · rw [if_neg hp, statsGet_cons, if_neg hp]
      apply ih
      simp only [statsKeys, List.map_cons, List.mem_cons] at hmem
      rcases hmem with h | h
      · exact absurd h.symm hp
      · exact h

theorem replaceEntry_get_ne {k k' : List String} (v : Nat) (h : k' ≠ k) :
    ∀ stats : List (List String × Nat),
      statsGet (stats.map (fun p => if p.1 = k then (k, v) else p)) k' = statsGet stats k' := by
  intro stats
  induction stats with
  | nil => rfl
  | cons p rest ih =>
    simp only [List.map_cons]
    rw [statsGet_cons, statsGet_cons]
    by_cases hp : p.1 = k
    · rw [if_pos hp]
      rw [if_neg (show ¬ ((k, v).1 = k') from fun e => h e.symm)]
      rw [if_neg (show ¬ (p.1 = k') from fun e => h (e.symm.trans hp))]
      exact ih
    · rw [if_neg hp]
      by_cases hq : p.1 = k'
      · rw [if_pos hq, if_pos hq]
      · rw [if_neg hq, if_neg hq]
        exact ih

theorem appendEntry_get_self (stats : List (List String × Nat)) {k : List String} (v : Nat)
    (h : k ∉ statsKeys stats) : statsGet (stats ++ [(k, v)]) k = some v := by
  induction stats with
  | nil =>
    rw [List.nil_append, statsGet_cons]
    simp
  | cons p rest ih =>
    rw [List.cons_append, statsGet_cons]
    simp only [statsKeys, List.map_cons, List.mem_cons] at h
    push_neg at h
    rw [if_neg (fun e => h.1 e.symm)]
    exact ih (by simpa [statsKeys] using h.2)

theorem appendEntry_get_ne (stats : List (List String × Nat)) {k k' : List String} (v : Nat)
    (h : k' ≠ k) : statsGet (stats ++ [(k, v)]) k' = statsGet stats k' := by
  induction stats with
  | nil =>
    rw [List.nil_append, statsGet_cons, statsGet_nil]
    exact if_neg (fun e => h e.symm)
  | cons p rest ih =>
    rw [List.cons_append, statsGet_cons, statsGet_cons]
    by_cases hp : p.1 = k'
    · rw [if_pos hp, if_pos hp]
    · rw [if_neg hp, if_neg hp]
      exact ih

theorem statsGet_statsSet_self (stats : List (List String × Nat)) (k : List String) (v : Nat) :
    statsGet (statsSet stats k v) k = some v := by
  unfold statsSet
  by_cases hpres : (stats.find? (fun p => decide (p.1 = k))).isSome = true
  · rw [if_pos hpres]
    exact replaceEntry_get_self v stats ((find?_isSome_iff stats k).mp hpres)
  · rw [if_neg hpres]
    refine appendEntry_get_self stats v ?_
    intro hmem
    exact hpres ((find?_isSome_iff stats k).mpr hmem)

theorem statsGet_statsSet_ne (stats : List (List String × Nat)) {k k' : List String} (v : Nat)
    (h : k' ≠ k) : statsGet (statsSet stats k v) k' = statsGet stats k' := by
  unfold statsSet
  by_cases hpres : (stats.find? (fun p => decide (p.1 = k))).isSome = true
  · rw [if_pos hpres]
    exact replaceEntry_get_ne v h stats
  · rw [if_neg hpres]
    exact appendEntry_get_ne stats v h

theorem statsKeys_statsSet (stats : List (List String × Nat)) (k : List String) (v : Nat) :
    statsKeys (statsSet stats k v) =
      if k ∈ statsKeys stats then statsKeys stats else statsKeys stats ++ [k] := by
  unfold statsSet
  by_cases hpres : (stats.find? (fun p => decide (p.1 = k))).isSome = true
  · rw [if_pos hpres, if_pos ((find?_isSome_iff stats k).mp hpres)]
    unfold statsKeys
    rw [List.map_map]
    apply List.map_congr_left
    intro p _
    by_cases hp : p.1 = k
    · simp [Function.comp, hp]
    · simp [Function.comp, hp]
  · rw [if_neg hpres, if_neg (fun hmem => hpres ((find?_isSome_iff stats k).mpr hmem))]
    unfold statsKeys
    simp

theorem statsSum_statsSet_present {stats : List (List String × Nat)} {k : List String} {n : Nat}
    (v : Nat) (hnd : (statsKeys stats).Nodup) (hget : statsGet stats k = some n) :
    statsSum (statsSet stats k v) + n = statsSum stats + v := by
  have hmem : k ∈ statsKeys stats := by
    by_contra hmem
    rw [← statsGet_none_iff] at hmem
    rw [hmem] at hget
    cases hget
  have hpres : (stats.find? (fun p => decide (p.1 = k))).isSome = true :=
    (find?_isSome_iff stats k).mpr hmem
  unfold statsSet
  rw [if_pos hpres]
  clear hpres hmem
  induction stats with
  | nil => cases hget
  | cons p rest ih =>
    simp only [statsKeys, List.map_cons, List.nodup_cons] at hnd
    rw [statsGet_cons] at hget
    simp only [List.map_cons]
    by_cases hp : p.1 = k
    · rw [if_pos hp] at *
      injection hget with hget
      have hrest : rest.map (fun p => if p.1 = k then (k, v) else p) = rest := by
        have hcg : ∀ q ∈ rest, (if q.1 = k then (k, v) else q) = id q := by
          intro q hq
          rw [if_neg]
          · rfl
          · intro hqk
            apply hnd.1
            rw [hp, ← hqk]
            exact List.mem_map_of_mem (fun p => p.1) hq
        rw [List.map_congr_left hcg, List.map_id]
      rw [hrest]
      unfold statsSum
      simp only [List.map_cons, List.sum_cons]
      omega
    · rw [if_neg hp] at *
      have hsub := ih (by simpa [statsKeys] using hnd.2) hget
      unfold statsSum at *
      simp only [List.map_cons, List.sum_cons]
      omega

theorem statsSum_statsSet_absent {stats : List (List String × Nat)} {k : List String}
    (v : Nat) (hget : statsGet stats k = none) :
    statsSum (statsSet stats k v) = statsSum stats + v := by
  have hpres : ¬ (stats.find? (fun p => decide (p.1 = k))).isSome = true := by
    rw [find?_isSome_iff, ← statsGet_none_iff] at *
    simp [hget]
  unfold statsSet
  rw [if_neg hpres]
  unfold statsSum
  simp

theorem statsStep_of_some {stats : List (List String × Nat)} {k : List String} {n : Nat}
    (hget : statsGet stats k = some n) :
    statsStep stats k = if n ≠ 0 then statsSet stats k (n + 1) else statsSet stats k 1 := by
  unfold statsStep
  rw [hget]

theorem statsStep_of_none {stats : List (List String × Nat)} {k : List String}
    (hget : statsGet stats k = none) : statsStep stats k = statsSet stats k 1 := by
  unfold statsStep
  rw [hget]

theorem statsGet_statsStep_self (stats : List (List String × Nat)) (k : List String) :
    statsGet (statsStep stats k) k = some ((statsGet stats k).getD 0 + 1) := by
  cases hget : statsGet stats k with
  | none =>
    rw [statsStep_of_none hget]
    simp only [Option.getD]
    exact statsGet_statsSet_self stats k 1
  | some n =>
    rw [statsStep_of_some hget]
    by_cases hn : n ≠ 0
    · rw [if_pos hn]
      exact statsGet_statsSet_self stats k (n + 1)
    · rw [if_neg hn]
      push_neg at hn
      subst hn
      exact statsGet_statsSet_self stats k 1

theorem statsGet_statsStep_ne (stats : List (List String × Nat)) {k k' : List String}
    (h : k' ≠ k) : statsGet (statsStep stats k) k' = statsGet stats k' := by
  cases hget : statsGet stats k with
  | none =>
    rw [statsStep_of_none hget]
    exact statsGet_statsSet_ne stats 1 h
  | some n =>
    rw [statsStep_of_some hget]
    by_cases hn : n ≠ 0
    · rw [if_pos hn]
      exact statsGet_statsSet_ne stats (n + 1) h
    · rw [if_neg hn]
      exact statsGet_statsSet_ne stats 1 h

theorem statsKeys_statsStep (stats : List (List String × Nat)) (k : List String) :
    statsKeys (statsStep stats k) =
      if k ∈ statsKeys stats then statsKeys stats else statsKeys stats ++ [k] := by
  cases hget : statsGet stats k with
  | none =>
    rw [statsStep_of_none hget]
    exact statsKeys_statsSet stats k 1
  | some n =>
    rw [statsStep_of_some hget]
    by_cases hn : n ≠ 0
    · rw [if_pos hn]
      exact statsKeys_statsSet stats k (n + 1)
    · rw [if_neg hn]
      exact statsKeys_statsSet stats k 1

theorem statsSum_statsStep (stats : List (List String × Nat)) (k : List String)
    (hnd : (statsKeys stats).Nodup) :
    statsSum (statsStep stats k) = statsSum stats + 1 := by
  cases hget : statsGet stats k with
  | none =>
    rw [statsStep_of_none hget]
    exact statsSum_statsSet_absent 1 hget
  | some n =>
    rw [statsStep_of_some hget]
    by_cases hn : n ≠ 0
    · rw [if_pos hn]
      have := statsSum_statsSet_present (n + 1) hnd hget
      omega
    · rw [if_neg hn]
      push_neg at hn
      subst hn
      have := statsSum_statsSet_present 1 hnd hget
      omega

/-! The accumulation loop of the Count Stage: distinct keys, exact counts,
and the total. -/

theorem hxlcountStats_append (tags : List String) (rows : List Row) (r : Row) :
    hxlcountStats tags (rows ++ [r]) =
      if extractValues tags r ≠ [] then
        statsStep (hxlcountStats tags rows) (extractValues tags r)
      else hxlcountStats tags rows := by
  unfold hxlcountStats
  rw [List.foldl_append]
  rfl

theorem hxlcountStats_nodup (tags : List String) :
    ∀ rows : List Row, (statsKeys (hxlcountStats tags rows)).Nodup := by
  intro rows
  induction rows using List.reverseRecOn with
  | nil => exact List.nodup_nil
  | append_singleton rows r ih =>
    rw [hxlcountStats_append]
    by_cases he : extractValues tags r ≠ []
    · rw [if_pos he, statsKeys_statsStep]
      by_cases hmem : extractValues tags r ∈ statsKeys (hxlcountStats tags rows)
      · rw [if_pos hmem]
        exact ih
      · rw [if_neg hmem]
        rw [List.nodup_append]
        refine ⟨ih, List.nodup_singleton _, ?_⟩
        intro a ha hak
        exact hmem (by rwa [List.mem_singleton.mp hak] at ha)
    · rw [if_neg he]
      exact ih

theorem countKey_append (tags : List String) (rows : List Row) (r : Row) (k : List String) :
    countKey tags (rows ++ [r]) k =
      countKey tags rows k + (if extractValues tags r = k then 1 else 0) := by
  unfold countKey
  rw [List.filter_append, List.length_append]
  congr 1
  by_cases he : extractValues tags r = k
  · rw [if_pos he]
    simp [List.filter, he]
  · rw [if_neg he]
    simp [List.filter, he]

theorem statsGet_hxlcountStats (tags : List String) :
    ∀ (rows : List Row) (k : List String),
      statsGet (hxlcountStats tags rows) k =
        if countKey tags rows k ≠ 0 ∧ k ≠ [] then some (countKey tags rows k) else none := by
  intro rows
  induction rows using List.reverseRecOn with
  | nil =>
    intro k
    have h0 : countKey tags [] k = 0 := rfl
    rw [h0]
    simp [hxlcountStats, statsGet_nil]
  | append_singleton rows r ih =>
    intro k
    rw [hxlcountStats_append, countKey_append]
    by_cases he : extractValues tags r ≠ []
    · rw [if_pos he]
      by_cases hk : k = extractValues tags r
      · subst hk
        rw [statsGet_statsStep_self, ih, if_pos rfl]
        rw [if_pos (show countKey tags rows (extractValues tags r) + 1 ≠ 0
          ∧ extractValues tags r ≠ [] from ⟨by omega, he⟩)]
        by_cases hc : countKey tags rows (extractValues tags r) ≠ 0
            ∧ extractValues tags r ≠ []
        · rw [if_pos hc]
          simp only [Option.getD]
        · rw [if_neg hc]
          simp only [Option.getD]
          have hc0 : countKey tags rows (extractValues tags r) = 0 := by
            by_contra h0
            exact hc ⟨h0, he⟩
          rw [hc0]
      · have h0 : (if extractValues tags r = k then (1 : Nat) else 0) = 0 :=
          if_neg (fun e2 => hk e2.symm)
        rw [statsGet_statsStep_ne _ hk, ih, h0, Nat.add_zero]
    · rw [if_neg he]
      push_neg at he
      rw [ih]
      by_cases hk : k = []
      · subst hk
        rw [if_neg (fun h => h.2 rfl), if_neg (fun h => h.2 rfl)]
      · have h0 : (if extractValues tags r = k then (1 : Nat) else 0) = 0 :=
          if_neg (fun e2 => hk (he ▸ e2).symm)
        rw [h0, Nat.add_zero]

theorem statsSum_hxlcountStats (tags : List String) :
    ∀ rows : List Row,
      statsSum (hxlcountStats tags rows)
          + (rows.filter (fun r => decide (extractValues tags r = []))).length
        = rows.length := by
  intro rows
  induction rows using List.reverseRecOn with
  | nil => rfl
  | append_singleton rows r ih =>
    rw [hxlcountStats_append, List.filter_append, List.length_append, List.length_append]
    by_cases he : extractValues tags r ≠ []
    · rw [if_pos he, statsSum_statsStep _ _ (hxlcountStats_nodup tags rows)]
      have hf : (List.filter (fun r => decide (extractValues tags r = [])) [r]).length = 0 := by
        simp [List.filter, he]
      rw [hf]
      simp only [List.length_cons, List.length_nil]
      omega
    · push_neg at he
      rw [if_neg (by simp [he])]
      have hf : (List.filter (fun r => decide (extractValues tags r = [])) [r]).length = 1 := by
        simp [List.filter, he]
      rw [hf]
      simp only [List.length_cons, List.length_nil]
      omega

/-! Order of the emitted aggregate rows. -/

theorem itemLE_total : ∀ x y : List String × Nat, itemLE x y = true ∨ itemLE y x = true :=
  fun x y => boolLt_not_total pyPairLt_boolLt x y

theorem itemLE_trans : ∀ x y z : List String × Nat,
    itemLE x y = true → itemLE y z = true → itemLE x z = true :=
  fun _ _ _ h1 h2 => boolLt_not_trans pyPairLt_boolLt h1 h2

theorem pairLE_total : ∀ x y : List String × Row, pairLE x y = true ∨ pairLE y x = true :=
  fun x y => boolLt_not_total pyListLt_boolLt x.1 y.1

theorem pairLE_trans : ∀ x y z : List String × Row,
    pairLE x y = true → pairLE y z = true → pairLE x z = true :=
  fun _ _ _ h1 h2 => boolLt_not_trans pyListLt_boolLt h1 h2

theorem sortedItems_perm (stats : List (List String × Nat)) : sortedItems stats ~ stats :=
  pySort_perm itemLE stats

theorem sortedItems_pairwise (stats : List (List String × Nat)) :
    (sortedItems stats).Pairwise (fun x y => itemLE x y = true) :=
  pairwise_pySort itemLE_total itemLE_trans stats

theorem sortedItems_strict {stats : List (List String × Nat)}
    (hnd : (statsKeys stats).Nodup) :
    (sortedItems stats).Pairwise (fun x y => pyListLt x.1 y.1 = true) := by
  have h1 := sortedItems_pairwise stats
  have hperm : (sortedItems stats).map (fun p => p.1) ~ statsKeys stats :=
    (sortedItems_perm stats).map (fun p => p.1)
  have hnd2 : ((sortedItems stats).map (fun p => p.1)).Nodup := hperm.nodup_iff.mpr hnd
  have hne : (sortedItems stats).Pairwise (fun x y => x.1 ≠ y.1) :=
    List.pairwise_map.mp hnd2
  refine (h1.and hne).imp ?_
  intro a b hab
  obtain ⟨hle, hne2⟩ := hab
  cases hlt : pyListLt a.1 b.1 with
  | true => rfl
  | false =>
    exfalso
    have hba : pyPairLt b a = false := by
      have : (!pyPairLt b a) = true := hle
      simp only [Bool.not_eq_true'] at this
      exact this
    rw [pyPairLt, if_neg (fun e => hne2 e.symm)] at hba
    exact hne2 (pyListLt_boolLt.conn a.1 b.1 hlt hba)

/-! Case handling of the key-extraction closure: a successfully parsed value
consists of characters below code point 65, which upper-casing fixes. -/

theorem dropWhile_head_false {p : α → Bool} :
    ∀ {l : List α} {c : α} {t : List α}, l.dropWhile p = c :: t → p c = false := by
  intro l
  induction l with
  | nil =>
    intro c t h
    cases h
  | cons a l2 ih =>
    intro c t h
    rw [List.dropWhile_cons] at h
    by_cases hp : p a = true
    · rw [if_pos hp] at h
      exact ih h
    · rw [if_neg hp] at h
      injection h with h1 _
      rw [← h1]
      simpa using hp

theorem splitSign_snd (cs : List Char) :
    cs = (splitSign cs).2 ∨ ∃ c0, (c0 = '-' ∨ c0 = '+') ∧ cs = c0 :: (splitSign cs).2 := by
  cases cs with
  | nil => exact Or.inl rfl
  | cons c r =>
    simp only [splitSign]
    by_cases h1 : c = '-'
    · rw [if_pos h1]
      exact Or.inr ⟨c, Or.inl h1, rfl⟩
    · rw [if_neg h1]
      by_cases h2 : c = '+'
      · rw [if_pos h2]
        exact Or.inr ⟨c, Or.inr h2, rfl⟩
      · rw [if_neg h2]
        exact Or.inl rfl

theorem rest_chars_lt65 {rest : List Char}
    (hip : (rest.takeWhile (fun c => decide (c ≠ '.'))).all isDigitCh = true)
    (hfp : ((rest.dropWhile (fun c => decide (c ≠ '.'))).tail).all isDigitCh = true) :
    ∀ c ∈ rest, c.toNat < 65 := by
  intro c hc
  rw [← List.takeWhile_append_dropWhile (fun c => decide (c ≠ '.')) rest] at hc
  rcases List.mem_append.mp hc with hc | hc
  · have := isDigitCh_toNat (List.all_eq_true.mp hip c hc)
    omega
  · cases hd : rest.dropWhile (fun c => decide (c ≠ '.')) with
    | nil =>
      rw [hd] at hc
      cases hc
    | cons c1 t =>
      rw [hd] at hc hfp
      simp only [List.tail_cons] at hfp
      rcases List.mem_cons.mp hc with rfl | hc2
      · have hp := dropWhile_head_false hd
        simp only [decide_eq_false_iff_not, not_not] at hp
        rw [hp]
        have : ('.').toNat = 46 := rfl
        omega
      · have := isDigitCh_toNat (List.all_eq_true.mp hfp c hc2)
        omega

theorem parseDec_chars {v : String} {d : Dec} (h : parseDec v = some d) :
    ∀ c ∈ v.data, c.toNat < 65 := by
  by_cases hcond :
      ((splitSign v.data).2.takeWhile (fun c => decide (c ≠ '.'))).all isDigitCh = true
      ∧ (((splitSign v.data).2.dropWhile (fun c => decide (c ≠ '.'))).tail).all isDigitCh
          = true
  · intro c hc
    have hm : ('-').toNat = 45 := rfl
    have hpl : ('+').toNat = 43 := rfl
    rcases splitSign_snd v.data with hs | ⟨c0, hc0, hs⟩
    · exact rest_chars_lt65 hcond.1 hcond.2 c (by rw [← hs]; exact hc)
    · rw [hs] at hc
      rcases List.mem_cons.mp hc with rfl | hcr
      · rcases hc0 with rfl | rfl
        · omega
        · omega
      · exact rest_chars_lt65 hcond.1 hcond.2 c hcr
  · exfalso
    have hnone : parseDec v = none := by
      unfold parseDec
      simp only []
      rw [if_neg (fun hfull => hcond ⟨hfull.1, hfull.2.1⟩)]
    rw [hnone] at h
    cases h

theorem parseISODate_chars {v : String} {d : PyDate} (h : parseISODate v = some d) :
    ∀ c ∈ v.data, c.toNat < 65 := by
  unfold parseISODate at h
  split at h
  · rename_i c1 c2 c3 c4 e1 c5 c6 e2 c7 c8 heq
    split at h
    · rename_i hds
      obtain ⟨he1, he2, h1, h2, h3, h4, h5, h6, h7, h8⟩ := hds
      intro c hc
      rw [heq] at hc
      have hm : ('-').toNat = 45 := rfl
      have b1 := isDigitCh_toNat h1
      have b2 := isDigitCh_toNat h2
      have b3 := isDigitCh_toNat h3
      have b4 := isDigitCh_toNat h4
      have b5 := isDigitCh_toNat h5
      have b6 := isDigitCh_toNat h6
      have b7 := isDigitCh_toNat h7
      have b8 := isDigitCh_toNat h8
      simp only [List.mem_cons, List.not_mem_nil, or_false] at hc
      rcases hc with rfl | rfl | rfl | rfl | rfl | rfl | rfl | rfl | rfl | rfl
      · omega
      · omega
      · omega
      · omega
      · rw [he1]
        omega
      · omega
      · omega
      · rw [he2]
        omega
      · omega
      · omega
    · cases h
  · cases h

theorem map_toUpper_eq_of_lt65 :
    ∀ (xs ys : List Char), (∀ c ∈ ys, c.toNat < 65) → xs.map Char.toUpper = ys → xs = ys := by
  intro xs
  induction xs with
  | nil =>
    intro ys _ h
    exact h
  | cons x xs2 ih =>
    intro ys hy h
    cases ys with
    | nil => cases h
    | cons y ys2 =>
      injection h with h1 h2
      have hx : x = y := toUpper_eq_of_lt65 h1 (hy y (List.mem_cons_self y ys2))
      rw [hx, ih ys2 (fun c hc => hy c (List.mem_cons_of_mem y hc)) h2]

theorem eq_of_pyUpper_eq_lt65 {v u : String} (hu : ∀ c ∈ u.data, c.toNat < 65)
    (h : pyUpper v = pyUpper u) : v = u := by
  have hu2 : pyUpper u = u := pyUpper_fixed (fun c hc => by have := hu c hc; omega)
  rw [hu2] at h
  have hdata : v.data.map Char.toUpper = u.data := congrArg String.data h
  have h2 := map_toUpper_eq_of_lt65 v.data u.data hu hdata
  cases v
  cases u
  exact congrArg String.mk h2

theorem data_length_eq_of_pyUpper_eq {v1 v2 : String} (h : pyUpper v1 = pyUpper v2) :
    v1.data.length = v2.data.length := by
  have h2 := congrArg (fun s : String => s.data.length) h
  simpa [pyUpper] using h2

theorem eq_empty_iff_data_nil (s : String) : s = "" ↔ s.data = [] := by
  constructor
  · intro h
    rw [h]
  · intro h
    cases s with
    | mk cs =>
      rw [show (String.mk cs).data = cs from rfl] at h
      rw [h]

theorem upperOrEmpty_congr {v1 v2 : String} (hup : pyUpper v1 = pyUpper v2) :
    (if v1 = "" then "" else pyUpper v1) = (if v2 = "" then "" else pyUpper v2) := by
  have hlen := data_length_eq_of_pyUpper_eq hup
  by_cases he1 : v1 = ""
  · have he2 : v2 = "" := by
      rw [eq_empty_iff_data_nil] at he1 ⊢
      rw [he1] at hlen
      exact List.length_eq_zero.mp hlen.symm
    rw [if_pos he1, if_pos he2]
  · have he2 : v2 ≠ "" := by
      intro he2
      apply he1
      rw [eq_empty_iff_data_nil] at he2 ⊢
      rw [he2] at hlen
      exact List.length_eq_zero.mp hlen
    rw [if_neg he1, if_neg he2]
    exact hup

theorem upperOrEmpty_fixed (x : String) :
    pyUpper (if x = "" then "" else pyUpper x) = (if x = "" then "" else pyUpper x) := by
  by_cases h : x = ""
  · rw [if_pos h]
    rfl
  · rw [if_neg h]
    exact pyUpper_idem x

theorem empty_pyStrLt {s : String} (h : s ≠ "") : pyStrLt "" s = true := by
  have hd : s.data ≠ [] := fun hnil => h ((eq_empty_iff_data_nil s).mpr hnil)
  unfold pyStrLt
  cases hs : s.data with
  | nil => exact absurd hs hd
  | cons c t =>
    rw [show ("" : String).data = [] from rfl]
    rfl

/-! Shared facts about a successful sort pass: the decorated list carries each
row's own key, stripping the decoration recovers the upstream rows, and the
class of rows sharing one key keeps its upstream order under either reverse
setting. -/

theorem keyed_self {f : SortFilter} {keyed : List (List String × Row)}
    (hm : mapE (fun r => (makeKey f r).map (fun k => ((k, r) : List String × Row)))
        f.source.rows = .ok keyed) :
    ∀ x ∈ keyed, makeKey f x.2 = Except.ok x.1 := by
  intro x hx
  obtain ⟨r, hr, hgr⟩ := mapE_pairs_mem hm x hx
  have hgr2 : (makeKey f r).map (fun k0 => ((k0, r) : List String × Row))
      = Except.ok (x.1, x.2) := by
    rw [Prod.mk.eta]
    exact hgr
  exact (decorate_ok hgr2).2

theorem keyed_rows {f : SortFilter} {keyed : List (List String × Row)}
    (hm : mapE (fun r => (makeKey f r).map (fun k => ((k, r) : List String × Row)))
        f.source.rows = .ok keyed) :
    keyed.map (fun x => x.2) = f.source.rows :=
  mapE_pairs_snd (fun _ _ _ h => (decorate_ok h).1) hm

theorem keyed_mem_rows {f : SortFilter} {keyed : List (List String × Row)}
    (hm : mapE (fun r => (makeKey f r).map (fun k => ((k, r) : List String × Row)))
        f.source.rows = .ok keyed) :
    ∀ x ∈ keyed, x.2 ∈ f.source.rows := by
  intro x hx
  rw [← keyed_rows hm]
  exact List.mem_map_of_mem (fun x => x.2) hx

theorem sortFilter_filter_key {f : SortFilter} {out : List Row} {k : List String}
    (hout : sortFilterRows f = .ok out) :
    out.filter (fun r => decide (makeKey f r = Except.ok k))
      = f.source.rows.filter (fun r => decide (makeKey f r = Except.ok k)) := by
  obtain ⟨keyed, hm, ho⟩ := sortFilterRows_ok hout
  have hkey := keyed_self hm
  have hrows := keyed_rows hm
  have hp : ∀ x y : List String × Row, decide (x.1 = k) = true → decide (y.1 = k) = true →
      pairLE x y = true := by
    intro x y hx hy
    have hx2 : x.1 = k := of_decide_eq_true hx
    have hy2 : y.1 = k := of_decide_eq_true hy
    show (!pyListLt y.1 x.1) = true
    rw [hx2, hy2, pyListLt_boolLt.irrefl]
    rfl
  have hc1 : (pySorted pairLE f.reverse keyed).filter
        (fun x => decide (makeKey f x.2 = Except.ok k))
      = (pySorted pairLE f.reverse keyed).filter (fun x => decide (x.1 = k)) := by
    apply List.filter_congr
    intro x hx
    have hx2 : x ∈ keyed := (pySorted_perm pairLE f.reverse keyed).subset hx
    rw [hkey x hx2]
    simp
  have hc2 : keyed.filter (fun x => decide (x.1 = k))
      = keyed.filter (fun x => decide (makeKey f x.2 = Except.ok k)) := by
    apply List.filter_congr
    intro x hx
    rw [hkey x hx]
    simp
  rw [ho, ← hrows]
  simp only [List.filter_map, Function.comp_def]
  rw [hc1, filter_pySorted hp, hc2]

/-- Claim C9: the Sort Stage re-exposes the upstream column schema unchanged,
and a successful pass permutes the upstream rows (so only row order can
change, never the schema or the row multiset). -/
theorem sortFilter_columns_unchanged (f : SortFilter) (out : List Row)
    (hout : sortFilterRows f = .ok out) :
    SortFilter.columns f = f.source.columns ∧ out ~ f.source.rows := by
  refine ⟨rfl, ?_⟩
  obtain ⟨keyed, hm, ho⟩ := sortFilterRows_ok hout
  rw [ho, ← keyed_rows hm]
  exact (pySorted_perm pairLE f.reverse keyed).map (fun x => x.2)

/-- Witness: the three-row org sort succeeds and Claim C9's theorem yields the
unchanged schema and the permutation property at that input. -/
theorem sortFilter_columns_unchanged_witness :
    sortFilterRows stableF = Except.ok [stableRow1, stableRow3, stableRow2]
    ∧ (SortFilter.columns stableF = stableF.source.columns
        ∧ [stableRow1, stableRow3, stableRow2] ~ stableF.source.rows) :=
  ⟨rfl, sortFilter_columns_unchanged stableF [stableRow1, stableRow3, stableRow2] rfl⟩

/-- Claim C4: the sort is stable.  With reverse unset, the subsequence of
output rows carrying any fixed composite key equals the subsequence of input
rows carrying that key (equal-key rows keep their upstream relative order),
and consecutive output rows are in ascending composite-key order, the key
being the component-wise comparison of the per-pattern components (earlier
patterns primary). -/
theorem sortFilter_stable (f : SortFilter) (out : List Row)
    (hrev : f.reverse = false) (hout : sortFilterRows f = .ok out) :
    (∀ k : List String,
        out.filter (fun r => decide (makeKey f r = Except.ok k))
          = f.source.rows.filter (fun r => decide (makeKey f r = Except.ok k)))
    ∧ out.Pairwise (fun r1 r2 => ∀ k1 k2, makeKey f r1 = Except.ok k1 →
        makeKey f r2 = Except.ok k2 → keyLE k1 k2 = true) := by
  constructor
  · intro k
    exact sortFilter_filter_key hout
  · obtain ⟨keyed, hm, ho⟩ := sortFilterRows_ok hout
    have hkey := keyed_self hm
    rw [ho, hrev]
    have hps : pySorted pairLE false keyed = pySort pairLE keyed := rfl
    rw [hps, List.pairwise_map]
    have hmem : ∀ x ∈ pySort pairLE keyed, x ∈ keyed := fun x hx =>
      (pySort_perm pairLE keyed).subset hx
    refine (pairwise_pySort pairLE_total pairLE_trans keyed).imp_of_mem ?_
    intro a b ha hb hab
    intro k1 k2 h1 h2
    rw [hkey a (hmem a ha)] at h1
    rw [hkey b (hmem b hb)] at h2
    injection h1 with h1
    injection h2 with h2
    rw [← h1, ← h2]
    exact hab

/-- Witness: in the org sort the first and third rows share the key A (the
first differing only in case); Claim C4's theorem applied there shows the
equal-key subsequence of the output equals that of the input, so the
lower-case row stays ahead of its equal-key partner. -/
theorem sortFilter_stable_witness :
    (stableF.reverse = false
      ∧ sortFilterRows stableF = Except.ok [stableRow1, stableRow3, stableRow2])
    ∧ [stableRow1, stableRow3, stableRow2].filter
        (fun r => decide (makeKey stableF r = Except.ok ["A"]))
        = stableF.source.rows.filter
            (fun r => decide (makeKey stableF r = Except.ok ["A"])) :=
  ⟨⟨rfl, rfl⟩,
    (sortFilter_stable stableF [stableRow1, stableRow3, stableRow2] rfl rfl).1 ["A"]⟩

/-- Claim C5 counterexample: with two rows whose keys are equal (both X under
the #t pattern), the reverse=True output equals the reverse=False output, not
its whole-sequence reversal: sorted(reverse=True) keeps equal-key rows in
upstream order instead of reversing them, so the output is not the reversal
of the ascending output. -/
theorem sortFilter_reverse_counterexample :
    sortFilterRows (SortFilter.mk revSrc [TagPattern.mk "#t"] false)
        = Except.ok [revRow1, revRow2]
    ∧ sortFilterRows (SortFilter.mk revSrc [TagPattern.mk "#t"] true)
        = Except.ok [revRow1, revRow2]
    ∧ [revRow1, revRow2] ≠ [revRow1, revRow2].reverse :=
  ⟨rfl, rfl, by decide⟩

/-- Claim C5 (amended): when the composite keys of the upstream rows are
pairwise distinct, the reverse=True output is the whole-sequence reversal of
the reverse=False output; in general, under either reverse setting the rows
sharing any one key keep their upstream relative order (the descending sort
is stable too, rather than reversing ties). -/
theorem sortFilter_reverse_eq (src : Dataset) (tags : List TagPattern)
    (out outR : List Row)
    (hout : sortFilterRows (SortFilter.mk src tags false) = .ok out)
    (houtR : sortFilterRows (SortFilter.mk src tags true) = .ok outR) :
    ((∀ r1 ∈ src.rows, ∀ r2 ∈ src.rows,
        makeKey (SortFilter.mk src tags false) r1 = makeKey (SortFilter.mk src tags false) r2 →
        r1 = r2) → outR = out.reverse)
    ∧ (∀ k : List String,
        outR.filter (fun r => decide (makeKey (SortFilter.mk src tags true) r = Except.ok k))
          = src.rows.filter
              (fun r => decide (makeKey (SortFilter.mk src tags true) r = Except.ok k)))
    ∧ (∀ k : List String,
        out.filter (fun r => decide (makeKey (SortFilter.mk src tags false) r = Except.ok k))
          = src.rows.filter
              (fun r => decide (makeKey (SortFilter.mk src tags false) r = Except.ok k))) := by
  refine ⟨?_, fun k => sortFilter_filter_key houtR, fun k => sortFilter_filter_key hout⟩
  intro hdist
  obtain ⟨keyed, hm, ho⟩ := sortFilterRows_ok hout
  obtain ⟨keyedR, hmR, hoR⟩ := sortFilterRows_ok houtR
  have hm2 : mapE (fun r => (makeKey (SortFilter.mk src tags false) r).map
      (fun k => ((k, r) : List String × Row))) src.rows = .ok keyed := hm
  have hmR2 : mapE (fun r => (makeKey (SortFilter.mk src tags false) r).map
      (fun k => ((k, r) : List String × Row))) src.rows = .ok keyedR := hmR
  have hkk : keyedR = keyed := by
    rw [hm2] at hmR2
    injection hmR2 with h
    exact h.symm
  have hanti : ∀ x ∈ keyed, ∀ y ∈ keyed, pairLE x y = true → pairLE y x = true → x = y := by
    intro x hx y hy hxy hyx
    have h1 : pyListLt y.1 x.1 = false := by
      have h0 : (!pyListLt y.1 x.1) = true := hxy
      simpa using h0
    have h2 : pyListLt x.1 y.1 = false := by
      have h0 : (!pyListLt x.1 y.1) = true := hyx
      simpa using h0
    have hk1 : x.1 = y.1 := pyListLt_boolLt.conn x.1 y.1 h2 h1
    have hx2 := keyed_self hm x hx
    have hy2 := keyed_self hm y hy
    have hxr := keyed_mem_rows hm x hx
    have hyr := keyed_mem_rows hm y hy
    have heq : x.2 = y.2 := hdist x.2 hxr y.2 hyr (by rw [hx2, hy2, hk1])
    exact Prod.ext hk1 heq
  have hrevEq : pySort pairLE keyed.reverse = pySort pairLE keyed :=
    pySort_reverse_eq pairLE_total pairLE_trans keyed hanti
  rw [hoR, hkk, ho]
  show (pySorted pairLE true keyed).map (fun x => x.2)
      = ((pySorted pairLE false keyed).map (fun x => x.2)).reverse
  have h1 : pySorted pairLE true keyed = (pySort pairLE keyed.reverse).reverse := rfl
  have h2 : pySorted pairLE false keyed = pySort pairLE keyed := rfl
  rw [h1, h2, hrevEq, List.map_reverse]

/-- Witness: on two rows with the distinct keys B and A the amended Claim C5
theorem yields the whole-sequence reversal at that input. -/
theorem sortFilter_reverse_eq_witness :
    (sortFilterRows (SortFilter.mk (Dataset.mk [] [stableRow2, stableRow3])
        [TagPattern.mk "#org"] false) = Except.ok [stableRow3, stableRow2]
      ∧ sortFilterRows (SortFilter.mk (Dataset.mk [] [stableRow2, stableRow3])
          [TagPattern.mk "#org"] true) = Except.ok [stableRow2, stableRow3])
    ∧ [stableRow2, stableRow3] = [stableRow3, stableRow2].reverse :=
  ⟨⟨rfl, rfl⟩,
    (sortFilter_reverse_eq (Dataset.mk [] [stableRow2, stableRow3]) [TagPattern.mk "#org"]
        [stableRow3, stableRow2] [stableRow2, stableRow3] rfl rfl).1 (by decide)⟩

/-- Claim C6: for a pattern whose hashtag ends in _date, a value that fails to
parse as a date makes the whole sort pass end in an error (the exception
propagates to the caller; there is no fallback), while a value that parses is
rendered in canonical YYYY-MM-DD form, on which lexicographic order coincides
with chronological order. -/
theorem sortFilter_date_behaviour (f : SortFilter) (p : TagPattern) (r : Row) (v : String)
    (htag : pyEndsWith p.tag "_date" = true)
    (hp : p ∈ f.sort_tags) (hr : r ∈ f.source.rows)
    (hv : TagPattern.get_value p r = some v) :
    (parseISODate v = none → ∃ e, sortFilterRows f = .error e)
    ∧ (∀ d, parseISODate v = some d → getKeyValue p r = Except.ok (formatDate d))
    ∧ (∀ v1 v2 d1 d2, parseISODate v1 = some d1 → parseISODate v2 = some d2 →
        (pyStrLt (formatDate d1) (formatDate d2) = true ↔ dateBefore d1 d2)) := by
  refine ⟨?_, ?_, ?_⟩
  · intro hnone
    obtain ⟨e2, hk⟩ := makeKey_error hp (getKeyValue_date_error htag hv hnone)
    exact sortFilterRows_error hr hk
  · intro d hd
    exact getKeyValue_date_ok htag hv hd
  · intro v1 v2 d1 d2 h1 h2
    obtain ⟨_, hy1, _, hm1, _, hd1⟩ := parseISODate_bounds h1
    obtain ⟨_, hy2, _, hm2, _, hd2⟩ := parseISODate_bounds h2
    exact formatDate_lt_iff hy1 hm1 hd1 hy2 hm2 hd2

/-- Witness: the single-row date sort whose value not-a-date does not parse;
Claim C6's theorem applied there makes the whole pass return an error. -/
theorem sortFilter_date_behaviour_witness :
    (pyEndsWith (TagPattern.mk "#when_date").tag "_date" = true
      ∧ TagPattern.mk "#when_date" ∈ dateDemoF.sort_tags
      ∧ dateDemoRow ∈ dateDemoF.source.rows
      ∧ TagPattern.get_value (TagPattern.mk "#when_date") dateDemoRow = some "not-a-date")
    ∧ (∃ e, sortFilterRows dateDemoF = .error e) :=
  ⟨⟨rfl, by decide, by decide, rfl⟩,
    (sortFilter_date_behaviour dateDemoF (TagPattern.mk "#when_date") dateDemoRow "not-a-date"
        rfl (by decide) (by decide) rfl).1 rfl⟩

/-- Claim C7: for a pattern whose hashtag ends in _num or _deg, a value that
fails to parse as a number raises no error: the key component is the raw
string unchanged (before the shared upper-casing step), so the field degrades
silently to lexical ordering. -/
theorem sortFilter_numeric_fallback (p : TagPattern) (r : Row) (v : String)
    (htag : (pyEndsWith p.tag "_num" || pyEndsWith p.tag "_deg") = true)
    (hv : TagPattern.get_value p r = some v)
    (hfail : pyStrFloat v = none) :
    getKeyValue p r = Except.ok (if v = "" then "" else pyUpper v)
    ∧ ∀ e, getKeyValue p r ≠ Except.error e := by
  have h := getKeyValue_num_fallback htag hv hfail
  refine ⟨h, ?_⟩
  intro e he
  rw [h] at he
  cases he

/-- Witness: the unparsable numeric value abc under a #value_num pattern;
Claim C7's theorem applied there returns the raw string upper-cased with no
error. -/
theorem sortFilter_numeric_fallback_witness :
    ((pyEndsWith (TagPattern.mk "#value_num").tag "_num"
        || pyEndsWith (TagPattern.mk "#value_num").tag "_deg") = true
      ∧ TagPattern.get_value (TagPattern.mk "#value_num") (Row.mk [("#value_num", "abc")])
          = some "abc"
      ∧ pyStrFloat "abc" = none)
    ∧ getKeyValue (TagPattern.mk "#value_num") (Row.mk [("#value_num", "abc")])
        = Except.ok (if "abc" = "" then "" else pyUpper "abc") :=
  ⟨⟨rfl, rfl, rfl⟩,
    (sortFilter_numeric_fallback (TagPattern.mk "#value_num") (Row.mk [("#value_num", "abc")])
        "abc" rfl rfl rfl).1⟩

/-- Claim C2 counterexample: the values 2.15 and 2.5 both parse as numbers and
2.15 is numerically smaller, yet the rendered key of 2.5 is lexicographically
smaller than that of 2.15 (zero padding is applied after the variable-length
fraction, so the keys are not aligned at the decimal point), and the sort
pass on those two values puts 2.5 before 2.15: lexicographic order of the
rendered keys does not coincide with numeric order in general. -/
theorem sort_numeric_key_counterexample :
    decLtB "2.15" "2.5" = true
    ∧ pyStrLt (numNormalize "2.5") (numNormalize "2.15") = true
    ∧ sortFilterRows (SortFilter.mk (Dataset.mk [] [numRow215, numRow25])
        [TagPattern.mk "#value_num"] false) = Except.ok [numRow25, numRow215] :=
  ⟨by decide, by decide, rfl⟩

/-- Claim C2 (amended): for a value that parses as a nonnegative integer below
ten to the thirteenth, the rendered key is the fixed-width fifteen-character
zero-left-padded decimal form (the padded integer digits followed by point
zero), and on such values lexicographic order of the rendered keys coincides
with numeric order; in particular the values 2, 10, 1 sort as 1, 2, 10 rather
than lexically. -/
theorem sort_numeric_key_nat_order (a b : Nat) (ha : a < 10 ^ 13) (hb : b < 10 ^ 13) :
    (numNormalize (natRepr a)).data = padNat 13 a ++ ['.', '0']
    ∧ (numNormalize (natRepr a)).data.length = 15
    ∧ (pyStrLt (numNormalize (natRepr a)) (numNormalize (natRepr b)) = true ↔ a < b)
    ∧ sortFilterRows (SortFilter.mk (Dataset.mk [] [numRowTwo, numRowTen, numRowOne])
        [TagPattern.mk "#value_num"] false) = Except.ok [numRowOne, numRowTwo, numRowTen] :=
  ⟨numNormalize_natRepr ha, numNormalize_natRepr_length ha, pyStrLt_numKey_nat ha hb, rfl⟩

/-- Witness: the amended Claim C2 theorem at the values 2 and 10 gives key
order matching numeric order. -/
theorem sort_numeric_key_nat_order_witness :
    ((2 : Nat) < 10 ^ 13 ∧ (10 : Nat) < 10 ^ 13)
    ∧ (pyStrLt (numNormalize (natRepr 2)) (numNormalize (natRepr 10)) = true ↔ 2 < 10) :=
  ⟨⟨by norm_num, by norm_num⟩,
    (sort_numeric_key_nat_order 2 10 (by norm_num) (by norm_num)).2.2.1⟩

/-- Claim C8: every successfully extracted key component is a fixed point of
upper-casing (so comparison happens on upper-cased components); two present
values that agree up to letter case yield the same key component whenever
both extractions succeed; a missing value yields the empty-string component;
and the empty string is lexicographically below every non-empty string. -/
theorem sort_key_upper_and_missing (p : TagPattern) :
    (∀ r s, getKeyValue p r = Except.ok s → pyUpper s = s)
    ∧ (∀ r1 r2 v1 v2 s1 s2, TagPattern.get_value p r1 = some v1 →
        TagPattern.get_value p r2 = some v2 → pyUpper v1 = pyUpper v2 →
        getKeyValue p r1 = Except.ok s1 → getKeyValue p r2 = Except.ok s2 → s1 = s2)
    ∧ (∀ r, TagPattern.get_value p r = none → getKeyValue p r = Except.ok "")
    ∧ (∀ s : String, s ≠ "" → pyStrLt "" s = true) := by
  refine ⟨?_, ?_, ?_, fun s hs => empty_pyStrLt hs⟩
  · intro r s hs
    cases hv : TagPattern.get_value p r with
    | none =>
      unfold getKeyValue at hs
      rw [hv] at hs
      injection hs with hs
      rw [← hs]
      rfl
    | some v =>
      rw [getKeyValue_some hv] at hs
      by_cases hnum : (pyEndsWith p.tag "_num" || pyEndsWith p.tag "_deg") = true
      · rw [if_pos hnum] at hs
        injection hs with hs
        rw [← hs]
        exact upperOrEmpty_fixed (numNormalize v)
      · rw [if_neg hnum] at hs
        by_cases hdate : pyEndsWith p.tag "_date" = true
        · rw [if_pos hdate] at hs
          cases hd : parseISODate v with
          | some d =>
            rw [hd] at hs
            injection hs with hs
            rw [← hs]
            exact upperOrEmpty_fixed (formatDate d)
          | none =>
            rw [hd] at hs
            cases hs
        · rw [if_neg hdate] at hs
          injection hs with hs
          rw [← hs]
          exact upperOrEmpty_fixed v
  · intro r1 r2 v1 v2 s1 s2 hv1 hv2 hup h1 h2
    rw [getKeyValue_some hv1] at h1
    rw [getKeyValue_some hv2] at h2
    by_cases hnum : (pyEndsWith p.tag "_num" || pyEndsWith p.tag "_deg") = true
    · rw [if_pos hnum] at h1 h2
      injection h1 with h1
      injection h2 with h2
      rw [← h1, ← h2]
      cases hd1 : parseDec v1 with
      | some d =>
        rw [eq_of_pyUpper_eq_lt65 (parseDec_chars hd1) hup.symm]
      | none =>
        cases hd2 : parseDec v2 with
        | some d =>
          rw [eq_of_pyUpper_eq_lt65 (parseDec_chars hd2) hup]
        | none =>
          have hf1 : pyStrFloat v1 = none := by
            unfold pyStrFloat
            rw [hd1]
            rfl
          have hf2 : pyStrFloat v2 = none := by
            unfold pyStrFloat
            rw [hd2]
            rfl
          rw [numNormalize_of_fail hf1, numNormalize_of_fail hf2]
          exact upperOrEmpty_congr hup
    · rw [if_neg hnum] at h1 h2
      by_cases hdate : pyEndsWith p.tag "_date" = true
      · rw [if_pos hdate] at h1 h2
        cases hd1 : parseISODate v1 with
        | none =>
          rw [hd1] at h1
          cases h1
        | some d1 =>
          rw [hd1] at h1
          have he : v2 = v1 := eq_of_pyUpper_eq_lt65 (parseISODate_chars hd1) hup.symm
          rw [he, hd1] at h2
          injection h1 with h1
          injection h2 with h2
          rw [← h1, ← h2]
      · rw [if_neg hdate] at h1 h2
        injection h1 with h1
        injection h2 with h2
        rw [← h1, ← h2]
        exact upperOrEmpty_congr hup
  · intro r hv
    unfold getKeyValue
    rw [hv]

/-- Witness: Claim C8's theorem applied to a row with no value under the #org
pattern yields the empty-string key component. -/
theorem sort_key_upper_and_missing_witness :
    TagPattern.get_value (TagPattern.mk "#org") (Row.mk [("#adm1", "X")]) = none
    ∧ getKeyValue (TagPattern.mk "#org") (Row.mk [("#adm1", "X")]) = Except.ok "" :=
  ⟨rfl,
    (sort_key_upper_and_missing (TagPattern.mk "#org")).2.2.1 (Row.mk [("#adm1", "X")]) rfl⟩

/-- Claim C1: the stats dict of the Count Stage holds pairwise distinct keys
(one output row per distinct tuple); a row's extracted value list is exactly
the per-tag lookups with the absent indicator dropped (only the absent
pattern's contribution is skipped); a tuple is a key exactly when it is
nonempty and some input row extracts to it (fully-absent rows contribute to
no group); every stored count equals the number of input rows extracting to
its tuple; and the stored counts sum to the number of input rows minus the
fully-absent rows. -/
theorem hxlcount_counts (tags : List String) (rows : List Row) (hne : tags ≠ []) :
    (statsKeys (hxlcountStats tags rows)).Nodup
    ∧ (∀ r : Row, extractValues tags r = (tags.map (fun t => Row.get r t)).filterMap id)
    ∧ (∀ k : List String,
        k ∈ statsKeys (hxlcountStats tags rows)
          ↔ (k ≠ [] ∧ ∃ r ∈ rows, extractValues tags r = k))
    ∧ (∀ k n, statsGet (hxlcountStats tags rows) k = some n → n = countKey tags rows k)
    ∧ statsSum (hxlcountStats tags rows)
        + (rows.filter (fun r => decide (extractValues tags r = []))).length
      = rows.length := by
  have hcnt : ∀ k : List String,
      countKey tags rows k ≠ 0 ↔ ∃ r ∈ rows, extractValues tags r = k := by
    intro k
    unfold countKey
    rw [Ne, List.length_eq_zero]
    constructor
    · intro h
      rcases List.exists_mem_of_ne_nil _ h with ⟨r, hr⟩
      obtain ⟨hr1, hr2⟩ := List.mem_filter.mp hr
      exact ⟨r, hr1, of_decide_eq_true hr2⟩
    · rintro ⟨r, hr, he⟩ hnil
      have hmem : r ∈ rows.filter (fun r => decide (extractValues tags r = k)) :=
        List.mem_filter.mpr ⟨hr, decide_eq_true he⟩
      rw [hnil] at hmem
      cases hmem
  refine ⟨hxlcountStats_nodup tags rows, ?_, ?_, ?_, statsSum_hxlcountStats tags rows⟩
  · intro r
    unfold extractValues
    rw [List.filterMap_map]
    rfl
  · intro k
    constructor
    · intro hk
      have hne2 : ¬ statsGet (hxlcountStats tags rows) k = none := by
        rw [statsGet_none_iff]
        exact fun h => h hk
      rw [statsGet_hxlcountStats] at hne2
      by_cases hc : countKey tags rows k ≠ 0 ∧ k ≠ []
      · exact ⟨hc.2, (hcnt k).mp hc.1⟩
      · rw [if_neg hc] at hne2
        exact absurd rfl hne2
    · rintro ⟨hk, hex⟩
      have hc : countKey tags rows k ≠ 0 := (hcnt k).mpr hex
      have hsome : statsGet (hxlcountStats tags rows) k ≠ none := by
        rw [statsGet_hxlcountStats, if_pos ⟨hc, hk⟩]
        exact fun h => Option.noConfusion h
      by_contra hmem
      exact hsome ((statsGet_none_iff _ k).mpr hmem)
  · intro k n h
    rw [statsGet_hxlcountStats] at h
    by_cases hc : countKey tags rows k ≠ 0 ∧ k ≠ []
    · rw [if_pos hc] at h
      injection h with h
      exact h.symm
    · rw [if_neg hc] at h
      cases h

/-- Witness: Claim C1's theorem applied to the WASH example (sector WASH in
adm1 A twice and in B once) under the tags #sector and #adm1. -/
theorem hxlcount_counts_witness :
    (["#sector", "#adm1"] : List String) ≠ []
    ∧ (statsKeys (hxlcountStats ["#sector", "#adm1"] demoRows)).Nodup :=
  ⟨by decide, (hxlcount_counts ["#sector", "#adm1"] demoRows (by decide)).1⟩

/-- Claim C3: the Count Stage first writes the header, the requested tags
followed by the single synthetic trailing #x_total_num column; the remaining
output rows are the stats entries in strictly ascending lexicographic order
of their tuple components (hence neither insertion order nor count order),
each row being the tuple's component values followed by the rendered count. -/
theorem hxlcount_output_order (rows : List Row) (tags : List String) :
    (hxlcount rows tags).1.head? = some (tags ++ [totalTag])
    ∧ ∃ items : List (List String × Nat),
        (hxlcount rows tags).1.tail = items.map (fun p => p.1 ++ [natRepr p.2])
        ∧ items ~ hxlcountStats tags rows
        ∧ items.Pairwise (fun x y => pyListLt x.1 y.1 = true) :=
  ⟨rfl, sortedItems (hxlcountStats tags rows), rfl, sortedItems_perm _,
    sortedItems_strict (hxlcountStats_nodup tags rows)⟩

/-- Claim C10: hxlcount hands back the caller's tags list with #x_total_num
appended in place, one element longer; a second call reusing that list writes
a header containing #x_total_num twice and groups by the mutated list, the
synthetic tag included among the grouping tags. -/
theorem hxlcount_mutates_tags (rows rows2 : List Row) (tags : List String) :
    (hxlcount rows tags).2 = tags ++ [totalTag]
    ∧ (hxlcount rows tags).2.length = tags.length + 1
    ∧ (hxlcount rows2 (hxlcount rows tags).2).1.head?
        = some (tags ++ [totalTag, totalTag])
    ∧ (hxlcount rows2 (hxlcount rows tags).2).2.count totalTag
        = tags.count totalTag + 2
    ∧ (hxlcount rows2 (hxlcount rows tags).2).1.tail
        = (sortedItems (hxlcountStats (tags ++ [totalTag]) rows2)).map
            (fun p => p.1 ++ [natRepr p.2]) := by
  refine ⟨rfl, ?_, ?_, ?_, rfl⟩
  · show (tags ++ [totalTag]).length = tags.length + 1
    simp
  · show some ((tags ++ [totalTag]) ++ [totalTag]) = some (tags ++ [totalTag, totalTag])
    rw [List.append_assoc]
    rfl
  · show ((tags ++ [totalTag]) ++ [totalTag]).count totalTag = tags.count totalTag + 2
    have h1 : ([totalTag] : List String).count totalTag = 1 := by simp
    rw [List.count_append, List.count_append, h1]

end HXL
